import Mathlib

/-! Verification model of the two comment-preserving formatters of this
repository: `.github/scripts/format_jsonc.py` and
`.github/scripts/format_yaml.py`.  A file's text is modelled as
`List Char`; each script's `write_text` calls are modelled by returning the
written text (the JSONC formatter writes at most once per file, and only
returns normally after writing, so its run is an `Option (List Char)` with
`none` standing for a raised exception and hence no write).  The external
libraries (`commentjson`, `ruamel.yaml`, `json.dumps`) are modelled
separately and marked as such. -/

namespace Fmt

/-- Whitespace characters of Python `str.strip` (ASCII range). -/
def isWs (c : Char) : Bool :=
  c == ' ' || c == '\t' || c == '\n' || c == '\r' || c == '\x0b' || c == '\x0c'

/-- Line-break characters of Python `str.splitlines`. -/
def isNlChar (c : Char) : Bool :=
  c == '\n' || c == '\r' || c == '\x0b' || c == '\x0c' || c == '\x1c' ||
  c == '\x1d' || c == '\x1e' || c == '\x85' || c == '\u2028' || c == '\u2029'

/-- View a string literal as the list of its characters. -/
def toL (s : String) : List Char := s.data

/-- Python `str.rstrip`: drop trailing whitespace. -/
def rstripL : List Char → List Char
  | [] => []
  | c :: rest =>
    let r := rstripL rest
    if r.isEmpty && isWs c then [] else c :: r

/-- Python `str.lstrip`: drop leading whitespace. -/
def lstripL (l : List Char) : List Char := l.dropWhile isWs

/-- Python `str.strip`. -/
def stripL (l : List Char) : List Char := rstripL (lstripL l)

/-- Python `str.startswith` on character lists. -/
def beginsWith : List Char → List Char → Bool
  | _, [] => true
  | [], _ :: _ => false
  | c :: cs, p :: ps => c == p && beginsWith cs ps

/-- Python `str.endswith` on character lists. -/
def endsWithL (l p : List Char) : Bool := beginsWith l.reverse p.reverse

/-- Python `"\n".join`. -/
def joinNl : List (List Char) → List Char
  | [] => []
  | [l] => l
  | l :: ls => l ++ '\n' :: joinNl ls

/-- Worker for `splitlinesL`; `acc` holds the current line reversed, and
a `\r\n` pair counts as one break. -/
def splitlinesGo : List Char → List Char → List (List Char)
  | acc, [] => if acc.isEmpty then [] else [acc.reverse]
  | acc, [c] => if isNlChar c then [acc.reverse] else [(c :: acc).reverse]
  | acc, c :: d :: rest =>
    if c == '\r' && d == '\n' then acc.reverse :: splitlinesGo [] rest
    else if isNlChar c then acc.reverse :: splitlinesGo [] (d :: rest)
    else splitlinesGo (c :: acc) (d :: rest)

/-- Python `str.splitlines`. -/
def splitlinesL (t : List Char) : List (List Char) := splitlinesGo [] t

/-! The string-aware comment scanner of `format_jsonc.py`
(`split_content_and_comment`, lines 20-46). -/

/-- The scan loop of `split_content_and_comment`: walk the line with the
`in_string`/`escaped` flags and return the index of the first `//` comment
marker found outside a string literal, if any. -/
def findComment : List Char → Bool → Bool → Nat → Option Nat
  | [], _, _, _ => none
  | c :: rest, ins, esc, i =>
    if c == '"' && !esc then findComment rest (!ins) false (i + 1)
    else if c == '\\' && !esc then findComment rest ins true (i + 1)
    else if !ins && c == '/' && rest.head? == some '/' then some i
    else findComment rest ins false (i + 1)

/-- `split_content_and_comment`: split a line into content and inline
comment (content rstripped; comment stripped). -/
def split_content_and_comment (line : List Char) : List Char × Option (List Char) :=
  match findComment line false false 0 with
  | some i => (rstripL (line.take i), some (stripL (line.drop i)))
  | none => (rstripL line, none)

/-- One transition of the in-string/escaped flag pair, as the scanner's
loop performs it on one character. -/
def ccStep (st : Bool × Bool) (c : Char) : Bool × Bool :=
  if c == '"' && !st.2 then (!st.1, false)
  else if c == '\\' && !st.2 then (st.1, true)
  else (st.1, false)

/-- The scanner's `in_string` flag at position `i` of a line (state before
processing character `i`). -/
def insAt (line : List Char) (i : Nat) : Bool :=
  ((line.take i).foldl ccStep (false, false)).1

/-- Position `i` of the line carries the `//` marker. -/
def slashPair (line : List Char) (i : Nat) : Bool :=
  beginsWith (line.drop i) ['/', '/']

/-! The JSONC extractor (`extract_comments`, lines 49-106). -/

/-- The regex `KEY_RE = ^\s*"([^"]+)":` applied with `re.match`: returns
the captured key. -/
def keyMatch (content : List Char) : Option (List Char) :=
  match content.dropWhile isWs with
  | '"' :: rest =>
    let key := rest.takeWhile (fun c => c != '"')
    if key.isEmpty then none
    else
      match rest.drop key.length with
      | '"' :: ':' :: _ => some key
      | _ => none
  | _ => none

/-- Python dict lookup on an association list. -/
def lookupA {α : Type} : List (List Char × α) → List Char → Option α
  | [], _ => none
  | (k', v) :: rest, k => if k' == k then some v else lookupA rest k

/-- Python dict assignment `m[k] = v` (overwrite or append). -/
def updA {α : Type} : List (List Char × α) → List Char → α → List (List Char × α)
  | [], k, v => [(k, v)]
  | (k', v') :: rest, k, v =>
    if k' == k then (k, v) :: rest else (k', v') :: updA rest k v

/-- `".".join ls`. -/
def joinDot : List (List Char) → List Char
  | [] => []
  | [k] => k
  | k :: ks => k ++ '.' :: joinDot ks

/-- `full_path` of `extract_comments`: dot-join of the path stack plus the
key. -/
def full_path (stack : List (List Char)) (key : List Char) : List Char :=
  joinDot (stack ++ [key])

/-- State of the `extract_comments` loop.  `cur` is `cur_comments` (it
becomes the bottom-comment list after the scan), `inl` the inline-comment
dict, `stack` the `path_stack`. -/
structure ExtractSt where
  top : List (List Char)
  cur : List (List Char)
  leading : List (List Char × List (List Char))
  inl : List (List Char × List Char)
  stack : List (List Char)
  inObj : Bool

/-- One iteration of the `extract_comments` line loop. -/
def extractStep (st : ExtractSt) (line : List Char) : ExtractSt :=
  let pr := split_content_and_comment line
  let content := pr.1
  if content.isEmpty then
    if !st.inObj then { st with top := st.top ++ [rstripL line] }
    else { st with cur := st.cur ++ [stripL line] }
  else if beginsWith content ['{'] then { st with inObj := true }
  else if beginsWith content ['}'] then
    let st1 := match pr.2 with
      | some c => { st with cur := st.cur ++ [c] }
      | none => st
    { st1 with stack := st1.stack.dropLast }
  else
    match keyMatch content with
    | some key =>
      let fp := full_path st.stack key
      let st1 :=
        if !st.cur.isEmpty then
          { st with leading := updA st.leading fp st.cur, cur := [] }
        else st
      let st2 := match pr.2 with
        | some c => { st1 with inl := updA st1.inl fp c }
        | none => st1
      if content.contains '{' then { st2 with stack := st2.stack ++ [key] } else st2
    | none =>
      match pr.2 with
      | some c => { st with cur := st.cur ++ [c] }
      | none => st

/-- `extract_comments`: fold the line loop from the empty state.  The
returned state's `top`/`leading`/`inl` are the containers of the same
name; its final `cur` is the bottom-comment list. -/
def extract_comments (lines : List (List Char)) : ExtractSt :=
  lines.foldl extractStep ⟨[], [], [], [], [], false⟩

/-! Modelled from the spec: the external canonical re-serializer for the
JSONC pipeline.  The spec treats `commentjson.loads`/`commentjson.dumps`
as a correct external collaborator that parses the document ignoring
comments and re-emits it with deterministic key order and fixed two-space
indentation (`json.dumps(data, indent=2)`).  `Jval` is the parsed value
tree; the parser model covers objects, arrays, strings with the common
escapes, integer numerals, booleans and null. -/

mutual
inductive Jval : Type where
  | null : Jval
  | bool : Bool → Jval
  | num : Int → Jval
  | str : List Char → Jval
  | arr : JArr → Jval
  | obj : JObj → Jval
inductive JArr : Type where
  | nil : JArr
  | cons : Jval → JArr → JArr
inductive JObj : Type where
  | nil : JObj
  | cons : List Char → Jval → JObj → JObj
end

/-- Python truthiness test `not data` on a parsed JSON value. -/
def Jval.falsy : Jval → Bool
  | .null => true
  | .bool b => !b
  | .num n => n == 0
  | .str s => s.isEmpty
  | .arr .nil => true
  | .arr _ => false
  | .obj .nil => true
  | .obj _ => false

/-- JSON whitespace accepted between tokens. -/
def isWsJson (c : Char) : Bool :=
  c == ' ' || c == '\t' || c == '\n' || c == '\r'

/-- Skip JSON whitespace. -/
def skipWsJ (cs : List Char) : List Char := cs.dropWhile isWsJson

/-- Decode one character escape of a JSON string literal. -/
def escCharJ (c : Char) : Option Char :=
  [('n', '\n'), ('t', '\t'), ('r', '\r'), ('b', '\x08'), ('f', '\x0c'),
    ('"', '"'), ('\\', '\\'), ('/', '/')].lookup c

/-- Parse the body of a JSON string literal (after the opening quote);
returns the decoded content and the rest after the closing quote. -/
def parseStringBody : List Char → Option (List Char × List Char)
  | [] => none
  | '"' :: rest => some ([], rest)
  | '\\' :: e :: rest =>
    match escCharJ e, parseStringBody rest with
    | some c, some (s, r) => some (c :: s, r)
    | _, _ => none
  | c :: rest =>
    match parseStringBody rest with
    | some (s, r) => some (c :: s, r)
    | none => none

/-- Accumulate decimal digits. -/
def digitsToNat (acc : Nat) : List Char → Nat × List Char
  | c :: rest =>
    if c.isDigit then digitsToNat (acc * 10 + (c.toNat - 48)) rest else (acc, c :: rest)
  | [] => (acc, [])

/-- Parse an integer numeral (modelled subset: no fraction or exponent). -/
def parseIntJ : List Char → Option (Int × List Char)
  | '-' :: c :: rest =>
    if c.isDigit then
      let pr := digitsToNat 0 (c :: rest)
      some (-(pr.1 : Int), pr.2)
    else none
  | c :: rest =>
    if c.isDigit then
      let pr := digitsToNat 0 (c :: rest)
      some ((pr.1 : Int), pr.2)
    else none
  | [] => none

mutual
/-- Parse one JSON value (fuelled recursive descent). -/
def parseVal : Nat → List Char → Option (Jval × List Char)
  | 0, _ => none
  | fuel + 1, cs =>
    match skipWsJ cs with
    | '{' :: rest =>
      match parseObjB fuel rest with
      | some (fs, r) => some (.obj fs, r)
      | none => none
    | '[' :: rest =>
      match parseArrB fuel rest with
      | some (es, r) => some (.arr es, r)
      | none => none
    | '"' :: rest =>
      match parseStringBody rest with
      | some (s, r) => some (.str s, r)
      | none => none
    | 't' :: 'r' :: 'u' :: 'e' :: r => some (.bool true, r)
    | 'f' :: 'a' :: 'l' :: 's' :: 'e' :: r => some (.bool false, r)
    | 'n' :: 'u' :: 'l' :: 'l' :: r => some (.null, r)
    | cs' =>
      match parseIntJ cs' with
      | some (n, r) => some (.num n, r)
      | none => none

/-- Parse an array body (after `[`). -/
def parseArrB : Nat → List Char → Option (JArr × List Char)
  | 0, _ => none
  | fuel + 1, cs =>
    match skipWsJ cs with
    | ']' :: r => some (.nil, r)
    | cs' =>
      match parseVal fuel cs' with
      | some (v, r) =>
        match skipWsJ r with
        | ',' :: r2 =>
          match parseArrB fuel r2 with
          | some (es, r3) => some (.cons v es, r3)
          | none => none
        | ']' :: r2 => some (.cons v .nil, r2)
        | _ => none
      | none => none

/-- Parse an object body (after `{`). -/
def parseObjB : Nat → List Char → Option (JObj × List Char)
  | 0, _ => none
  | fuel + 1, cs =>
    match skipWsJ cs with
    | '}' :: r => some (.nil, r)
    | '"' :: rest =>
      match parseStringBody rest with
      | some (k, r) =>
        match skipWsJ r with
        | ':' :: r2 =>
          match parseVal fuel r2 with
          | some (v, r3) =>
            match skipWsJ r3 with
            | ',' :: r4 =>
              match parseObjB fuel r4 with
              | some (fs, r5) => some (.cons k v fs, r5)
              | none => none
            | '}' :: r4 => some (.cons k v .nil, r4)
            | _ => none
          | none => none
        | _ => none
      | none => none
    | _ => none
end

/-- Modelled from the spec: `commentjson.loads` — strip `//` comments
string-awarely from each line, then parse the remaining JSON text,
failing on anything invalid. -/
def jsonc_loads (t : List Char) : Option Jval :=
  let noC := joinNl ((splitlinesL t).map (fun l => (split_content_and_comment l).1))
  match parseVal (noC.length + 2) noC with
  | some (v, r) => if (skipWsJ r).isEmpty then some v else none
  | none => none

/-- Indentation prefix of depth `d` at two spaces per level. -/
def indentC (d : Nat) : List Char := List.replicate (2 * d) ' '

/-- Append a comma to the last line of a rendered entry. -/
def addComma : List (List Char) → List (List Char)
  | [] => []
  | [l] => [l ++ [',']]
  | l :: ls => l :: addComma ls

/-- Re-escape a decoded string for JSON output. -/
def escStringJ : List Char → List Char
  | [] => []
  | c :: rest =>
    (if c == '"' then ['\\', '"']
     else if c == '\\' then ['\\', '\\']
     else if c == '\n' then ['\\', 'n']
     else if c == '\t' then ['\\', 't']
     else if c == '\r' then ['\\', 'r']
     else if c == '\x08' then ['\\', 'b']
     else if c == '\x0c' then ['\\', 'f']
     else [c]) ++ escStringJ rest

/-- A quoted JSON string literal. -/
def qstr (s : List Char) : List Char := '"' :: escStringJ s ++ ['"']

/-- Decimal rendering of an integer. -/
def intChars (n : Int) : List Char := toL (toString n)

mutual
/-- Modelled from the spec: the line layout of `json.dumps(v, indent=2)`.
The first line carries no indentation (it continues the key's line);
subsequent lines carry their own. -/
def dVal : Jval → Nat → List (List Char)
  | .null, _ => [toL "null"]
  | .bool true, _ => [toL "true"]
  | .bool false, _ => [toL "false"]
  | .num n, _ => [intChars n]
  | .str s, _ => [qstr s]
  | .arr .nil, _ => [['[', ']']]
  | .arr (.cons v tl), d => ['['] :: dArr (.cons v tl) (d + 1) ++ [indentC d ++ [']']]
  | .obj .nil, _ => [['{', '}']]
  | .obj (.cons k v tl), d => ['{'] :: dObj (.cons k v tl) (d + 1) ++ [indentC d ++ ['}']]

/-- Lines of the comma-separated entries of a nonempty array. -/
def dArr : JArr → Nat → List (List Char)
  | .nil, _ => []
  | .cons v tl, d =>
    let lines := match dVal v d with
      | [] => []
      | f :: rest => (indentC d ++ f) :: rest
    match tl with
    | .nil => lines
    | .cons v' tl' => addComma lines ++ dArr (.cons v' tl') d

/-- Lines of the comma-separated entries of a nonempty object. -/
def dObj : JObj → Nat → List (List Char)
  | .nil, _ => []
  | .cons k v tl, d =>
    let lines := match dVal v d with
      | [] => []
      | f :: rest => (indentC d ++ qstr k ++ toL ": " ++ f) :: rest
    match tl with
    | .nil => lines
    | .cons k' v' tl' => addComma lines ++ dObj (.cons k' v' tl') d
end

/-- Modelled from the spec: `commentjson.dumps(data, indent=2)`. -/
def dumps (v : Jval) : List Char := joinNl (dVal v 0)

/-! The JSONC formatter (`format_jsonc_file`, lines 109-180). -/

/-- The pure-comment / empty-data write: keep the nonblank lines, each
`lstrip().rstrip()`-ed, joined with a final newline. -/
def pure_comment_out (lines : List (List Char)) : List Char :=
  joinNl ((lines.filter (fun ln => !(stripL ln).isEmpty)).map
    (fun ln => rstripL (lstripL ln))) ++ ['\n']

/-- One iteration of the comment-reinjection loop over the canonical
lines (`format_jsonc_file` lines 150-172); the accumulator is
`(out_lines, stack)`. -/
def reinjectStep (leading : List (List Char × List (List Char)))
    (inl : List (List Char × List Char))
    (acc : List (List Char) × List (List Char)) (line : List Char) :
    List (List Char) × List (List Char) :=
  let out := acc.1
  let stack := acc.2
  if beginsWith (stripL line) ['}'] then (out ++ [line], stack.dropLast)
  else
    match keyMatch line with
    | some key =>
      let fp := full_path stack key
      let ind := line.takeWhile (fun c => c != '"')
      let out1 := match lookupA leading fp with
        | some cs => out ++ cs.map (fun c => ind ++ stripL c)
        | none => out
      let line2 := match lookupA inl fp with
        | some ic => line ++ ' ' :: ic
        | none => line
      let stack2 := if endsWithL (stripL line) ['{'] then stack ++ [key] else stack
      (out1 ++ [line2], stack2)
    | none => (out ++ [line], stack)

/-- `format_jsonc_file` on a file's text: `some` of the written text, or
`none` when the run raises (malformed document) and nothing is written. -/
def format_jsonc (t : List Char) : Option (List Char) :=
  let lines := (splitlinesL t).map (fun l => l ++ ['\n'])
  let st := extract_comments lines
  let nonEmptyL := lines.filter (fun ln => !(stripL ln).isEmpty)
  let nonCommentL := nonEmptyL.filter (fun ln => !(beginsWith (stripL ln) ['/', '/']))
  if nonCommentL.isEmpty then some (pure_comment_out lines)
  else
    match jsonc_loads t with
    | none => none
    | some data =>
      if data.falsy then some (pure_comment_out lines)
      else
        match splitlinesL (dumps data) with
        | [] => none
        | opening :: restF =>
          let closing := (opening :: restF).getLastD []
          let mid := restF.dropLast
          let r := mid.foldl (reinjectStep st.leading st.inl) ([], [])
          let out1 := st.top ++ opening :: r.1
          let out2 := if restF.isEmpty then out1 else out1 ++ [closing]
          let out3 := out2 ++ st.cur
          let out4 := out3.filter (fun ln => !(stripL ln).isEmpty)
          some (joinNl out4 ++ ['\n'])

/-- Result of the JSONC driver `main`: final per-file contents, the
collected failing files, and the exit status. -/
structure DriveRes where
  finals : List (List Char)
  failed : List (List Char)
  exitCode : Nat

/-- One iteration of the driver loop of `main`: a successful format is
the written text; a raised exception leaves the file unchanged and
appends it to the failure list. -/
def mainStep (acc : List (List Char) × List (List Char)) (c : List Char) :
    List (List Char) × List (List Char) :=
  match format_jsonc c with
  | some v => (acc.1 ++ [v], acc.2)
  | none => (acc.1 ++ [c], acc.2 ++ [c])

/-- `main` of `format_jsonc.py` over a list of file contents: every file
is attempted, failures are collected (the file keeps its content), and
the status is 1 when the failure list is nonempty, else 0. -/
def jsonc_main (files : List (List Char)) : DriveRes :=
  let r := files.foldl mainStep ([], [])
  ⟨r.1, r.2, if r.2.isEmpty then 0 else 1⟩

/-! The YAML formatter (`format_yaml.py`). -/

/-- One iteration of the `compress_comments` loop. -/
def compressStep (acc : List (List Char)) (ln : List Char) : List (List Char) :=
  let s := stripL ln
  if beginsWith s ['#'] then acc ++ [s]
  else if !s.isEmpty then acc ++ [ln]
  else if !acc.isEmpty && !(stripL (acc.getLastD [])).isEmpty then acc ++ [ln]
  else acc

/-- `compress_comments` on the file's lines. -/
def compress_comments (lines : List (List Char)) : List (List Char) :=
  lines.foldl compressStep []

/-- `compress_comments` at file level (read, rewrite, write). -/
def compressText (t : List Char) : List Char :=
  joinNl (compress_comments (splitlinesL t)) ++ ['\n']

/-- `strip_trailing_whitespace` at file level. -/
def strip_trailing_whitespace (t : List Char) : List Char :=
  joinNl ((splitlinesL t).map rstripL) ++ ['\n']

/-- A line that contributes YAML content (not blank, not a comment). -/
def yamlContentLine (ln : List Char) : Bool :=
  let s := stripL ln
  !s.isEmpty && !(beginsWith s ['#'])

/-- Modelled from the spec: the external YAML loader (`ruamel.yaml`'s
`yaml.load`).  It parses the document ignoring comments, returns `none`
for a document with no structural content, and raises on invalid text; a
crude well-formedness check (balanced flow brackets over the content
lines) stands in for full YAML validity, adequate for the inputs
considered here.  The parsed tree itself is irrelevant to every claim, so
it is represented by `Unit`. -/
def yaml_load (t : List Char) : Except Unit (Option Unit) :=
  let contentLines := (splitlinesL t).filter yamlContentLine
  if contentLines.isEmpty then .ok none
  else
    let chars := contentLines.foldl (fun a l => a ++ l) []
    let opens := chars.countP (fun c => c == '[' || c == '{')
    let closes := chars.countP (fun c => c == ']' || c == '}')
    if opens == closes then .ok (some ()) else .error ()

/-- Run of `format_file` of `format_yaml.py` on one file: the sequence of
texts written to the file, the file's final content, and whether the run
completed without raising. -/
structure YamlRun where
  writes : List (List Char)
  final : List Char
  ok : Bool

/-- `format_file`: empty files are left untouched; otherwise (for files
outside `.github/workflows`) `compress_comments` rewrites the file, the
document is loaded, a run with a non-`None` document returns at once, and
only a `None` document is dumped (the configured representer emits
`null`) followed by `strip_trailing_whitespace`.  A load failure
propagates with the file left as the compression wrote it. -/
def format_yaml_file (isWorkflow : Bool) (t : List Char) : YamlRun :=
  if t.isEmpty then ⟨[], t, true⟩
  else
    let afterC := if isWorkflow then t else compressText t
    let writes0 : List (List Char) := if isWorkflow then [] else [afterC]
    match yaml_load afterC with
    | .error _ => ⟨writes0, afterC, false⟩
    | .ok (some _) => ⟨writes0, afterC, true⟩
    | .ok none =>
      let dumped := toL "null\n"
      let cleaned := strip_trailing_whitespace dumped
      ⟨writes0 ++ [dumped, cleaned], cleaned, true⟩

/-! Path traces: the structural-path computation of each pass, recorded
for comparison (claim C4).  Each trace step reuses the corresponding
pass's own step function for its state. -/

/-- Trace of the paths computed at key lines by the extraction pass. -/
def extractTraceStep (acc : List (List Char) × ExtractSt) (line : List Char) :
    List (List Char) × ExtractSt :=
  let st := acc.2
  let pr := split_content_and_comment line
  let content := pr.1
  let fpOpt : Option (List Char) :=
    if content.isEmpty || beginsWith content ['{'] || beginsWith content ['}'] then none
    else match keyMatch content with
      | some key => some (full_path st.stack key)
      | none => none
  (acc.1 ++ fpOpt.toList, extractStep st line)

/-- The sequence of full paths `extract_comments` computes at key lines. -/
def extract_key_paths (lines : List (List Char)) : List (List Char) :=
  (lines.foldl extractTraceStep ([], ⟨[], [], [], [], [], false⟩)).1

/-- Trace of the paths computed at key lines by the reinjection pass. -/
def reinjectTraceStep (leading : List (List Char × List (List Char)))
    (inl : List (List Char × List Char))
    (acc : List (List Char) × (List (List Char) × List (List Char)))
    (line : List Char) :
    List (List Char) × (List (List Char) × List (List Char)) :=
  let stack := acc.2.2
  let fpOpt : Option (List Char) :=
    if beginsWith (stripL line) ['}'] then none
    else match keyMatch line with
      | some key => some (full_path stack key)
      | none => none
  (acc.1 ++ fpOpt.toList, reinjectStep leading inl acc.2 line)

/-- The sequence of full paths the reinjection loop computes at key lines
of the canonical text. -/
def reinject_key_paths (mid : List (List Char)) : List (List Char) :=
  (mid.foldl (reinjectTraceStep [] []) ([], ([], []))).1

/-! Predicates used to state the claims about line shapes. -/

/-- A blank line (whitespace only). -/
def blankL (ln : List Char) : Bool := (stripL ln).isEmpty

/-- A YAML comment-only line. -/
def commentL (ln : List Char) : Bool := beginsWith (stripL ln) ['#']

/-- The per-line rewrite `compress_comments` performs on kept lines:
comment-only lines are fully stripped, others are unchanged. -/
def compressEntry (ln : List Char) : List Char :=
  if commentL ln then stripL ln else ln

/-- No leading blank line. -/
def noLeadBlank : List (List Char) → Bool
  | [] => true
  | a :: _ => !blankL a

/-- No two adjacent blank lines. -/
def noAdjBlank : List (List Char) → Bool
  | [] => true
  | [_] => true
  | a :: b :: rest => !(blankL a && blankL b) && noAdjBlank (b :: rest)

/-- A line that is empty or ends in a non-whitespace character (the shape
of every `rstrip`/`strip` image). -/
def lineEndOk (e : List Char) : Prop :=
  e = [] ∨ ∃ c, e.getLast? = some c ∧ isWs c = false

/-- A line that, when non-blank, does not end in a newline character. -/
def keepsLastOk (e : List Char) : Prop :=
  (stripL e).isEmpty = false → e.getLast? ≠ some '\n'

/-- C1: refuted on the code.  For the input `{ // note` / `"a": 1` / `}`
the comment `// note` trailing the opening-brace line is placed in none of
the four containers (the `{` branch of `extract_comments` discards the
line's trailing comment), and the formatted output contains no comment at
all: the multiset of comment texts is not preserved. -/
theorem c1_opening_brace_comment_destroyed :
    (extract_comments ((splitlinesL (toL "\x7b // note\n\"a\": 1\n\x7d")).map
      (fun l => l ++ ['\n']))).top = [] ∧
    (extract_comments ((splitlinesL (toL "\x7b // note\n\"a\": 1\n\x7d")).map
      (fun l => l ++ ['\n']))).leading = [] ∧
    (extract_comments ((splitlinesL (toL "\x7b // note\n\"a\": 1\n\x7d")).map
      (fun l => l ++ ['\n']))).inl = [] ∧
    (extract_comments ((splitlinesL (toL "\x7b // note\n\"a\": 1\n\x7d")).map
      (fun l => l ++ ['\n']))).cur = [] ∧
    format_jsonc (toL "\x7b // note\n\"a\": 1\n\x7d") =
      some (toL "\x7b\n  \"a\": 1\n\x7d\n") :=
  ⟨rfl, rfl, rfl, rfl, rfl⟩

/-- C2: refuted on the code.  For the YAML file `a: 1` the document loads
as a non-`None` value, and `format_file` returns at the inverted
`data is not None` branch: the only write is the comment-compression one
and the parsed tree is never dumped back, contradicting the code's own
branch comment and the spec. -/
theorem c2_yaml_nonempty_doc_not_dumped :
    (format_yaml_file false (toL "a: 1\n")).writes = [toL "a: 1\n"] ∧
    (format_yaml_file false (toL "a: 1\n")).final = toL "a: 1\n" ∧
    (format_yaml_file false (toL "a: 1\n")).ok = true :=
  ⟨rfl, rfl, rfl⟩

/-- C3: refuted on the code.  On the spec's concrete scenario
`{ // note` / `  "a": 1 // x` / `}` the inline comment `// x` survives but
`// note` is destroyed (no container of the extraction holds it), so the
output has no `// note` line above `"a"`. -/
theorem c3_scenario_leading_comment_dropped :
    (extract_comments ((splitlinesL (toL "\x7b // note\n  \"a\": 1 // x\n\x7d")).map
      (fun l => l ++ ['\n']))).top = [] ∧
    (extract_comments ((splitlinesL (toL "\x7b // note\n  \"a\": 1 // x\n\x7d")).map
      (fun l => l ++ ['\n']))).leading = [] ∧
    (extract_comments ((splitlinesL (toL "\x7b // note\n  \"a\": 1 // x\n\x7d")).map
      (fun l => l ++ ['\n']))).cur = [] ∧
    format_jsonc (toL "\x7b // note\n  \"a\": 1 // x\n\x7d") =
      some (toL "\x7b\n  \"a\": 1 // x\n\x7d\n") :=
  ⟨rfl, rfl, rfl, rfl⟩

/-- C4: refuted on the code.  On the (already canonically indented)
document `{` / `  "a": {` / `    "x": 1` / `  },` / `  "b": 2 // c` / `}`
the extraction pass computes the path `a.b` for the key `b` (the indented
`  },` line never matches `content.startswith("}")`, so no pop happens),
while the reinjection pass over the identical canonical lines computes
`b`; the inline comment stored at `a.b` is therefore dropped from the
output even though canonicalization preserves nesting. -/
theorem c4_extraction_reinjection_paths_disagree :
    extract_key_paths ((splitlinesL
      (toL "\x7b\n  \"a\": \x7b\n    \"x\": 1\n  \x7d,\n  \"b\": 2 // c\n\x7d")).map
      (fun l => l ++ ['\n'])) = [toL "a", toL "a.x", toL "a.b"] ∧
    (jsonc_loads
      (toL "\x7b\n  \"a\": \x7b\n    \"x\": 1\n  \x7d,\n  \"b\": 2 // c\n\x7d")).map
      (fun d => splitlinesL (dumps d)) =
      some [toL "\x7b", toL "  \"a\": \x7b", toL "    \"x\": 1", toL "  \x7d,",
        toL "  \"b\": 2", toL "\x7d"] ∧
    reinject_key_paths [toL "  \"a\": \x7b", toL "    \"x\": 1", toL "  \x7d,",
      toL "  \"b\": 2"] = [toL "a", toL "a.x", toL "b"] ∧
    (extract_comments ((splitlinesL
      (toL "\x7b\n  \"a\": \x7b\n    \"x\": 1\n  \x7d,\n  \"b\": 2 // c\n\x7d")).map
      (fun l => l ++ ['\n']))).inl = [(toL "a.b", toL "// c")] ∧
    format_jsonc (toL "\x7b\n  \"a\": \x7b\n    \"x\": 1\n  \x7d,\n  \"b\": 2 // c\n\x7d") =
      some (toL "\x7b\n  \"a\": \x7b\n    \"x\": 1\n  \x7d,\n  \"b\": 2\n\x7d\n") :=
  ⟨rfl, rfl, rfl, rfl, rfl⟩

/-- C5: refuted on the code for the YAML pipeline.  A pure-comment YAML
file `# hello` is first compressed, then loads as `None`, and the
inverted branch falls through to `yaml.dump(None)`: the file ends up
containing `null` and the comment is destroyed (a structural parse was
also attempted). -/
theorem c5_pure_comment_yaml_overwritten_with_null :
    (format_yaml_file false (toL "# hello\n")).writes =
      [toL "# hello\n", toL "null\n", toL "null\n"] ∧
    (format_yaml_file false (toL "# hello\n")).final = toL "null\n" ∧
    (format_yaml_file false (toL "# hello\n")).ok = true :=
  ⟨rfl, rfl, rfl⟩

/-- C8: refuted on the code.  Formatting the nested document `{` /
`"a": {` / `"x": 1` / `},` / `"b": 2 // c` / `}` once keeps the inline
comment `// c` on the `"b"` line; formatting the result again drops it
(the second extraction pass, now over indented canonical text, computes
the wrong path `a.b`), so the second output differs from the first. -/
theorem c8_format_jsonc_not_idempotent :
    format_jsonc (toL "\x7b\n\"a\": \x7b\n\"x\": 1\n\x7d,\n\"b\": 2 // c\n\x7d") =
      some (toL "\x7b\n  \"a\": \x7b\n    \"x\": 1\n  \x7d,\n  \"b\": 2 // c\n\x7d\n") ∧
    format_jsonc (toL "\x7b\n  \"a\": \x7b\n    \"x\": 1\n  \x7d,\n  \"b\": 2 // c\n\x7d\n") =
      some (toL "\x7b\n  \"a\": \x7b\n    \"x\": 1\n  \x7d,\n  \"b\": 2\n\x7d\n") ∧
    toL "\x7b\n  \"a\": \x7b\n    \"x\": 1\n  \x7d,\n  \"b\": 2\n\x7d\n" ≠
      toL "\x7b\n  \"a\": \x7b\n    \"x\": 1\n  \x7d,\n  \"b\": 2 // c\n\x7d\n" :=
  ⟨rfl, rfl, by decide⟩

/-- C6 counterexample: the claim fails on the YAML pipeline.  The
malformed YAML file `a: [1` followed by blank lines is rewritten by
`compress_comments` before the load raises, so on failure the on-disk
content is not left unmodified. -/
theorem c6_yaml_failure_rewrites_file :
    (format_yaml_file false (toL "a: [1\n\n\n")).ok = false ∧
    (format_yaml_file false (toL "a: [1\n\n\n")).final = toL "a: [1\n\n" ∧
    (format_yaml_file false (toL "a: [1\n\n\n")).final ≠ toL "a: [1\n\n\n" :=
  ⟨rfl, rfl, by decide⟩

/-- C9 counterexample: the claim fails on the YAML pipeline.  An empty
YAML file is deliberately left untouched (no write, final content empty —
no trailing newline at all), and a YAML file whose compressed form keeps
a trailing blank line, such as `a: 1` followed by a blank line, completes
successfully with two trailing newlines. -/
theorem c9_trailing_newline_failures :
    (format_yaml_file false []).writes = [] ∧
    (format_yaml_file false []).final = [] ∧
    (format_yaml_file false (toL "a: 1\n\n")).ok = true ∧
    (format_yaml_file false (toL "a: 1\n\n")).final = toL "a: 1\n\n" ∧
    endsWithL (toL "a: 1\n\n") (toL "\n\n") = true :=
  ⟨rfl, rfl, rfl, rfl, rfl⟩

theorem findComment_shift (l : List Char) : ∀ ins esc i,
    findComment l ins esc i = (findComment l ins esc 0).map (fun j => j + i) := by
  induction l with
  | nil => intro ins esc i; rfl
  | cons c rest ih =>
    intro ins esc i
    simp only [findComment]
    split_ifs with h1 h2 h3
    · rw [ih (!ins) false (i + 1), ih (!ins) false (0 + 1)]
      cases findComment rest (!ins) false 0 <;> simp <;> omega
    · rw [ih ins true (i + 1), ih ins true (0 + 1)]
      cases findComment rest ins true 0 <;> simp <;> omega
    · simp
    · rw [ih ins false (i + 1), ih ins false (0 + 1)]
      cases findComment rest ins false 0 <;> simp <;> omega

theorem slashPair_lt (l : List Char) (j : Nat) (h : slashPair l j = true) :
    j < l.length := by
  by_contra hj
  have hd : l.drop j = [] := List.drop_eq_nil_of_le (by omega)
  rw [slashPair, hd] at h
  exact absurd h (by simp [beginsWith])

theorem slashPair_cons (c : Char) (rest : List Char) (j : Nat) :
    slashPair (c :: rest) (j + 1) = slashPair rest j := by
  simp [slashPair, List.drop_succ_cons]

theorem findComment_some (l : List Char) : ∀ st j,
    findComment l st.1 st.2 0 = some j →
    ((l.take j).foldl ccStep st).1 = false ∧ slashPair l j = true := by
  induction l with
  | nil => intro st j h; exact Option.noConfusion h
  | cons c rest ih =>
    intro st j h
    simp only [findComment] at h
    split_ifs at h with h1 h2 h3
    · rw [findComment_shift] at h
      cases hf : findComment rest (!st.1) false 0 with
      | none => rw [hf] at h; simp at h
      | some j' =>
        rw [hf] at h
        simp only [Option.map_some', Option.some.injEq] at h
        subst h
        have hrec := ih (!st.1, false) j' hf
        refine ⟨?_, ?_⟩
        · rw [List.take_succ_cons, List.foldl_cons,
            show ccStep st c = (!st.1, false) from by simp [ccStep, h1]]
          exact hrec.1
        · rw [slashPair_cons]
          exact hrec.2
    · rw [findComment_shift] at h
      cases hf : findComment rest st.1 true 0 with
      | none => rw [hf] at h; simp at h
      | some j' =>
        rw [hf] at h
        simp only [Option.map_some', Option.some.injEq] at h
        subst h
        have hrec := ih (st.1, true) j' hf
        refine ⟨?_, ?_⟩
        · rw [List.take_succ_cons, List.foldl_cons,
            show ccStep st c = (st.1, true) from by
              simp only [ccStep]
              rw [if_neg h1, if_pos h2]]
          exact hrec.1
        · rw [slashPair_cons]
          exact hrec.2
    · have hj : j = 0 := (Option.some.inj h).symm
      subst hj
      simp only [Bool.and_eq_true, beq_iff_eq] at h3
      refine ⟨?_, ?_⟩
      · simp only [List.take_zero, List.foldl_nil]
        have hni := h3.1.1
        cases hq : st.1
        · rfl
        · rw [hq] at hni; simp at hni
      · cases rest with
        | nil => exact absurd h3.2 (by simp)
        | cons d tl =>
          have hd : d = '/' := by
            have := h3.2
            simp only [List.head?, Option.some.injEq] at this
            exact this
          simp [slashPair, beginsWith, h3.1.2, hd]
    · rw [findComment_shift] at h
      cases hf : findComment rest st.1 false 0 with
      | none => rw [hf] at h; simp at h
      | some j' =>
        rw [hf] at h
        simp only [Option.map_some', Option.some.injEq] at h
        subst h
        have hrec := ih (st.1, false) j' hf
        refine ⟨?_, ?_⟩
        · rw [List.take_succ_cons, List.foldl_cons,
            show ccStep st c = (st.1, false) from by
              simp only [ccStep]
              rw [if_neg h1, if_neg h2]]
          exact hrec.1
        · rw [slashPair_cons]
          exact hrec.2

theorem findComment_none (l : List Char) : ∀ st,
    findComment l st.1 st.2 0 = none →
    ∀ j, slashPair l j = true → ((l.take j).foldl ccStep st).1 = true := by
  induction l with
  | nil =>
    intro st _ j hj
    exact absurd (slashPair_lt [] j hj) (by simp)
  | cons c rest ih =>
    intro st h j hj
    simp only [findComment] at h
    split_ifs at h with h1 h2 h3
    · rw [findComment_shift] at h
      have hnone : findComment rest (!st.1) false 0 = none := by
        cases hf : findComment rest (!st.1) false 0 with
        | none => rfl
        | some k => rw [hf] at h; simp at h
      cases j with
      | zero =>
        exfalso
        simp only [slashPair, List.drop_zero, beginsWith, Bool.and_eq_true,
          beq_iff_eq] at hj
        simp only [Bool.and_eq_true, beq_iff_eq] at h1
        exact absurd (h1.1 ▸ hj.1) (by decide)
      | succ j' =>
        rw [List.take_succ_cons, List.foldl_cons,
          show ccStep st c = (!st.1, false) from by simp [ccStep, h1]]
        exact ih (!st.1, false) hnone j' ((slashPair_cons c rest j') ▸ hj)
    · rw [findComment_shift] at h
      have hnone : findComment rest st.1 true 0 = none := by
        cases hf : findComment rest st.1 true 0 with
        | none => rfl
        | some k => rw [hf] at h; simp at h
      cases j with
      | zero =>
        exfalso
        simp only [slashPair, List.drop_zero, beginsWith, Bool.and_eq_true,
          beq_iff_eq] at hj
        simp only [Bool.and_eq_true, beq_iff_eq] at h2
        exact absurd (h2.1 ▸ hj.1) (by decide)
      | succ j' =>
        rw [List.take_succ_cons, List.foldl_cons,
          show ccStep st c = (st.1, true) from by
            simp only [ccStep]
            rw [if_neg h1, if_pos h2]]
        exact ih (st.1, true) hnone j' ((slashPair_cons c rest j') ▸ hj)
    · rw [findComment_shift] at h
      have hnone : findComment rest st.1 false 0 = none := by
        cases hf : findComment rest st.1 false 0 with
        | none => rfl
        | some k => rw [hf] at h; simp at h
      cases j with
      | zero =>
        simp only [List.take_zero, List.foldl_nil]
        by_contra hst
        apply h3
        have hst' : st.1 = false := by
          cases hq : st.1
          · rfl
          · exact absurd hq hst
        simp only [slashPair, List.drop_zero] at hj
        cases rest with
        | nil => simp [beginsWith] at hj
        | cons d tl =>
          simp only [beginsWith, Bool.and_eq_true, beq_iff_eq] at hj
          rw [hst']
          simp [List.head?, hj.1, hj.2.1]
      | succ j' =>
        rw [List.take_succ_cons, List.foldl_cons,
          show ccStep st c = (st.1, false) from by
            simp only [ccStep]
            rw [if_neg h1, if_neg h2]]
        exact ih (st.1, false) hnone j' ((slashPair_cons c rest j') ▸ hj)

theorem strip_keeps_slashes (l : List Char) (h : beginsWith l ['/', '/'] = true) :
    beginsWith (stripL l) ['/', '/'] = true := by
  cases l with
  | nil => simp [beginsWith] at h
  | cons a t =>
    cases t with
    | nil => simp [beginsWith] at h
    | cons b t' =>
      simp only [beginsWith, Bool.and_eq_true, beq_iff_eq] at h
      obtain ⟨ha, hb, -⟩ := h
      subst ha; subst hb
      show beginsWith (rstripL (lstripL ('/' :: '/' :: t'))) _ = true
      rw [show lstripL ('/' :: '/' :: t') = '/' :: '/' :: t' from by
        simp [lstripL, List.dropWhile_cons, isWs]]
      rw [show rstripL ('/' :: '/' :: t') = '/' :: '/' :: rstripL t' from by
        simp [rstripL, isWs]]
      simp [beginsWith]

/-- C7: confirmed.  The comment scanner returns a comment only at a `//`
occurrence at which its in-string flag (toggled on unescaped quotes, with
the character after a backslash escape exempt from toggling) is off; a
line in which every `//` occurrence lies inside a string per that flag is
returned whole (rstripped) with no comment, and a found comment starts
with `//`, the content being the rstripped prefix before the marker. -/
theorem c7_split_string_safety (line : List Char) :
    ((∀ i, i < line.length → slashPair line i = true → insAt line i = true) →
      split_content_and_comment line = (rstripL line, none)) ∧
    (∀ c m, split_content_and_comment line = (c, some m) →
      ∃ i, insAt line i = false ∧ slashPair line i = true ∧
        c = rstripL (line.take i) ∧ m = stripL (line.drop i) ∧
        beginsWith m ['/', '/'] = true) := by
  constructor
  · intro hins
    cases hf : findComment line false false 0 with
    | none => simp [split_content_and_comment, hf]
    | some j =>
      exfalso
      have hj := findComment_some line (false, false) j hf
      have hlt := slashPair_lt line j hj.2
      have htr : insAt line j = true := hins j hlt hj.2
      have hfa : insAt line j = false := hj.1
      rw [htr] at hfa
      exact Bool.noConfusion hfa
  · intro c m hcm
    unfold split_content_and_comment at hcm
    cases hf : findComment line false false 0 with
    | none =>
      rw [hf] at hcm
      exact Option.noConfusion (congrArg Prod.snd hcm)
    | some j =>
      rw [hf] at hcm
      have hc : rstripL (line.take j) = c := congrArg Prod.fst hcm
      have hm : some (stripL (line.drop j)) = some m := congrArg Prod.snd hcm
      have hm2 : stripL (line.drop j) = m := Option.some.inj hm
      have hj := findComment_some line (false, false) j hf
      refine ⟨j, hj.1, hj.2, hc.symm, hm2.symm, ?_⟩
      rw [← hm2]
      exact strip_keeps_slashes _ hj.2

/-- Witness for C7: a line whose only `//` lies inside a string literal is
returned whole with no comment. -/
theorem c7_split_string_safety_witness :
    split_content_and_comment (toL "\"a//b\": 1") = (toL "\"a//b\": 1", none) :=
  (c7_split_string_safety (toL "\"a//b\": 1")).1 (by decide)

theorem beginsWith_ne_nil {l p : List Char} (hp : p ≠ []) (h : beginsWith l p = true) :
    l ≠ [] := by
  cases l with
  | nil =>
    cases p with
    | nil => exact absurd rfl hp
    | cons x xs => simp [beginsWith] at h
  | cons c cs => simp

theorem rstrip_cons (a : Char) (rest : List Char) :
    rstripL (a :: rest) =
      if (rstripL rest).isEmpty && isWs a then [] else a :: rstripL rest := rfl

theorem getLast?_cons_some {a c : Char} {l : List Char} (h : l.getLast? = some c) :
    (a :: l).getLast? = some c := by
  cases l with
  | nil => exact Option.noConfusion h
  | cons x xs =>
    rw [List.getLast?_cons_cons]
    exact h

theorem rstrip_ends (l : List Char) :
    rstripL l = [] ∨ ∃ c, (rstripL l).getLast? = some c ∧ isWs c = false := by
  induction l with
  | nil => exact Or.inl rfl
  | cons a rest ih =>
    rw [rstrip_cons]
    split_ifs with h
    · exact Or.inl rfl
    · right
      rcases ih with hnil | ⟨c, hc, hws⟩
      · rw [hnil] at h ⊢
        simp only [List.isEmpty_nil, Bool.true_and] at h
        exact ⟨a, by simp, by simpa using h⟩
      · exact ⟨c, getLast?_cons_some hc, hws⟩

theorem rstrip_noop (l : List Char) :
    ∀ c, l.getLast? = some c → isWs c = false → rstripL l = l := by
  induction l with
  | nil => intro c h _; exact Option.noConfusion h
  | cons a rest ih =>
    intro c h hws
    cases rest with
    | nil =>
      have ha : a = c := by simpa using h
      subst ha
      rw [rstrip_cons]
      simp [rstripL, hws]
    | cons x xs =>
      rw [List.getLast?_cons_cons] at h
      have hr := ih c h hws
      rw [rstrip_cons, hr]
      simp

theorem rstrip_head (l : List Char) :
    rstripL l = [] ∨ (rstripL l).head? = l.head? := by
  cases l with
  | nil => exact Or.inl rfl
  | cons a rest =>
    rw [rstrip_cons]
    split_ifs with h
    · exact Or.inl rfl
    · exact Or.inr (by simp)

theorem lstrip_head (l : List Char) :
    lstripL l = [] ∨ ∃ c t, lstripL l = c :: t ∧ isWs c = false := by
  induction l with
  | nil => exact Or.inl rfl
  | cons a rest ih =>
    by_cases h : isWs a = true
    · rw [show lstripL (a :: rest) = lstripL rest from by
        simp [lstripL, List.dropWhile_cons, h]]
      exact ih
    · right
      refine ⟨a, rest, ?_, by simpa using h⟩
      simp [lstripL, List.dropWhile_cons, h]

theorem lstrip_noop (a : Char) (t : List Char) (h : isWs a = false) :
    lstripL (a :: t) = a :: t := by
  simp [lstripL, List.dropWhile_cons, h]

theorem stripL_idem (l : List Char) : stripL (stripL l) = stripL l := by
  cases hs : stripL l with
  | nil => rfl
  | cons c t =>
    have hhead : isWs c = false := by
      have h1 := rstrip_head (lstripL l)
      rw [show rstripL (lstripL l) = stripL l from rfl, hs] at h1
      rcases h1 with h1 | h1
      · exact absurd h1 (by simp)
      · rcases lstrip_head l with h2 | ⟨d, t2, hd, hdw⟩
        · rw [h2] at h1; simp at h1
        · rw [hd] at h1
          simp only [List.head?_cons, Option.some.injEq] at h1
          rwa [h1]
    have hlast : ∃ d, (c :: t).getLast? = some d ∧ isWs d = false := by
      rcases rstrip_ends (lstripL l) with h | h
      · rw [show rstripL (lstripL l) = stripL l from rfl, hs] at h
        exact absurd h (by simp)
      · rw [show rstripL (lstripL l) = stripL l from rfl, hs] at h
        exact h
    obtain ⟨d, hd, hdw⟩ := hlast
    show rstripL (lstripL (c :: t)) = c :: t
    rw [lstrip_noop c t hhead]
    exact rstrip_noop _ d hd hdw

theorem comment_nonblank {e : List Char} (h : commentL e = true) : blankL e = false := by
  have := beginsWith_ne_nil (p := ['#']) (by simp) h
  rw [blankL]
  cases hq : stripL e with
  | nil => exact absurd hq this
  | cons x xs => simp

theorem blank_strip_nil {e : List Char} (h : blankL e = true) : stripL e = [] := by
  rw [blankL] at h
  cases hq : stripL e with
  | nil => rfl
  | cons x xs => rw [hq] at h; simp at h

theorem compressStep_comment {acc : List (List Char)} {ln : List Char}
    (h : commentL ln = true) : compressStep acc ln = acc ++ [stripL ln] := by
  simp only [compressStep]
  rw [if_pos (show beginsWith (stripL ln) ['#'] = true from h)]

theorem compressStep_content {acc : List (List Char)} {ln : List Char}
    (h1 : commentL ln = false) (h2 : blankL ln = false) :
    compressStep acc ln = acc ++ [ln] := by
  simp only [compressStep]
  rw [if_neg (show ¬(beginsWith (stripL ln) ['#'] = true) from by
    rw [show beginsWith (stripL ln) ['#'] = false from h1]
    simp)]
  rw [if_pos (show (!(stripL ln).isEmpty) = true from by
    rw [show (stripL ln).isEmpty = false from h2]
    rfl)]

theorem compressStep_blank {acc : List (List Char)} {ln : List Char}
    (h : blankL ln = true) :
    compressStep acc ln =
      if !acc.isEmpty && !(stripL (acc.getLastD [])).isEmpty then acc ++ [ln] else acc := by
  have hsn := blank_strip_nil h
  simp only [compressStep, hsn]
  rw [if_neg (show ¬(beginsWith ([] : List Char) ['#'] = true) from by
    simp [beginsWith])]
  rw [if_neg (show ¬((!([] : List Char).isEmpty) = true) from by simp)]
theorem compress_filter_aux (ls : List (List Char)) : ∀ acc,
    (ls.foldl compressStep acc).filter (fun ln => !blankL ln) =
      acc.filter (fun ln => !blankL ln) ++
        (ls.filter (fun ln => !blankL ln)).map compressEntry := by
  induction ls with
  | nil => intro acc; simp
  | cons ln rest ih =>
    intro acc
    rw [List.foldl_cons, ih]
    by_cases hc : commentL ln = true
    · have hnb : blankL ln = false := comment_nonblank hc
      have hnb2 : blankL (stripL ln) = false := by
        rw [blankL, stripL_idem]
        exact hnb
      rw [compressStep_comment hc, List.filter_append]
      simp [List.filter_cons, hnb, hnb2, compressEntry, hc]
    · have hc' : commentL ln = false := by
        cases hq : commentL ln
        · rfl
        · exact absurd hq hc
      by_cases hb : blankL ln = true
      · have hfeq : (compressStep acc ln).filter (fun l => !blankL l) =
            acc.filter (fun l => !blankL l) := by
          rw [compressStep_blank hb]
          split_ifs
          · simp [List.filter_append, hb]
          · rfl
        rw [hfeq]
        simp [List.filter_cons, hb]
      · have hb' : blankL ln = false := by
          cases hq : blankL ln
          · rfl
          · exact absurd hq hb
        rw [compressStep_content hc' hb', List.filter_append]
        simp [List.filter_cons, hb', compressEntry, hc']

theorem noLeadBlank_append (acc : List (List Char)) (x : List Char) :
    noLeadBlank (acc ++ [x]) = if acc.isEmpty then !blankL x else noLeadBlank acc := by
  cases acc <;> simp [noLeadBlank]

theorem noAdjBlank_append (acc : List (List Char)) (x : List Char) :
    noAdjBlank (acc ++ [x]) =
      (noAdjBlank acc && (acc.isEmpty || !(blankL (acc.getLastD []) && blankL x))) := by
  induction acc with
  | nil => simp [noAdjBlank]
  | cons a t ih =>
    cases t with
    | nil => simp [noAdjBlank, List.getLastD]
    | cons b t2 =>
      show noAdjBlank (a :: b :: (t2 ++ [x])) = _
      rw [show noAdjBlank (a :: b :: (t2 ++ [x])) =
          (!(blankL a && blankL b) && noAdjBlank (b :: (t2 ++ [x]))) from rfl]
      rw [← List.cons_append, ih]
      rw [show noAdjBlank (a :: b :: t2) =
          (!(blankL a && blankL b) && noAdjBlank (b :: t2)) from rfl]
      simp only [List.isEmpty_cons, List.getLastD_cons, Bool.false_or]
      cases noAdjBlank (b :: t2) <;> cases (blankL a && blankL b) <;> simp

theorem noAdjBlank_tail {a : List Char} {t : List (List Char)}
    (h : noAdjBlank (a :: t) = true) : noAdjBlank t = true := by
  cases t with
  | nil => rfl
  | cons b t2 =>
    rw [show noAdjBlank (a :: b :: t2) =
        (!(blankL a && blankL b) && noAdjBlank (b :: t2)) from rfl,
      Bool.and_eq_true] at h
    exact h.2

theorem compress_shape (ls : List (List Char)) : ∀ acc,
    noLeadBlank acc = true → noAdjBlank acc = true →
    noLeadBlank (ls.foldl compressStep acc) = true ∧
      noAdjBlank (ls.foldl compressStep acc) = true := by
  induction ls with
  | nil => intro acc h1 h2; exact ⟨h1, h2⟩
  | cons ln rest ih =>
    intro acc h1 h2
    rw [List.foldl_cons]
    have key : ∀ x, blankL x = false →
        noLeadBlank (acc ++ [x]) = true ∧ noAdjBlank (acc ++ [x]) = true := by
      intro x hx
      constructor
      · rw [noLeadBlank_append]
        split_ifs
        · simp [hx]
        · exact h1
      · rw [noAdjBlank_append, h2, hx]
        simp
    by_cases hc : commentL ln = true
    · rw [compressStep_comment hc]
      have hnb2 : blankL (stripL ln) = false := by
        rw [blankL, stripL_idem]
        exact comment_nonblank hc
      exact ih _ (key _ hnb2).1 (key _ hnb2).2
    · have hc' : commentL ln = false := by
        cases hq : commentL ln
        · rfl
        · exact absurd hq hc
      by_cases hb : blankL ln = true
      · rw [compressStep_blank hb]
        split_ifs with hg
        · simp only [Bool.and_eq_true, Bool.not_eq_true'] at hg
          refine ih _ ?_ ?_
          · rw [noLeadBlank_append, if_neg (by simp [hg.1])]
            exact h1
          · rw [noAdjBlank_append, h2]
            have hbl : blankL (acc.getLastD []) = false := by
              rw [blankL]
              exact hg.2
            rw [hbl]
            simp
        · exact ih _ h1 h2
      · have hb' : blankL ln = false := by
          cases hq : blankL ln
          · rfl
          · exact absurd hq hb
        rw [compressStep_content hc' hb']
        exact ih _ (key _ hb').1 (key _ hb').2

theorem compress_comment_entries (ls : List (List Char)) : ∀ acc,
    (∀ e ∈ acc, commentL e = true → stripL e = e) →
    ∀ e ∈ ls.foldl compressStep acc, commentL e = true → stripL e = e := by
  induction ls with
  | nil => intro acc h; exact h
  | cons ln rest ih =>
    intro acc h
    rw [List.foldl_cons]
    refine ih _ ?_
    intro e he hce
    by_cases hc : commentL ln = true
    · rw [compressStep_comment hc] at he
      rcases List.mem_append.mp he with h2 | h2
      · exact h e h2 hce
      · have : e = stripL ln := by simpa using h2
        rw [this]
        exact stripL_idem ln
    · have hc' : commentL ln = false := by
        cases hq : commentL ln
        · rfl
        · exact absurd hq hc
      by_cases hb : blankL ln = true
      · rw [compressStep_blank hb] at he
        split_ifs at he
        · rcases List.mem_append.mp he with h2 | h2
          · exact h e h2 hce
          · have he' : e = ln := by simpa using h2
            subst he'
            rw [show commentL e = false from by
              rw [commentL, blank_strip_nil hb]
              rfl] at hce
            exact Bool.noConfusion hce
        · exact h e he hce
      · have hb' : blankL ln = false := by
          cases hq : blankL ln
          · rfl
          · exact absurd hq hb
        rw [compressStep_content hc' hb'] at he
        rcases List.mem_append.mp he with h2 | h2
        · exact h e h2 hce
        · have he' : e = ln := by simpa using h2
          subst he'
          rw [hc'] at hce
          exact Bool.noConfusion hce

theorem compress_fixpoint_aux (out : List (List Char)) : ∀ acc,
    (∀ e ∈ out, commentL e = true → stripL e = e) →
    noAdjBlank out = true →
    (∀ h0 hr, out = h0 :: hr → blankL h0 = true →
      acc.isEmpty = false ∧ blankL (acc.getLastD []) = false) →
    out.foldl compressStep acc = acc ++ out := by
  induction out with
  | nil => intro acc _ _ _; simp
  | cons h0 rest ih =>
    intro acc hcs hadj hhead
    rw [List.foldl_cons]
    by_cases hb : blankL h0 = true
    · obtain ⟨hne, hlast⟩ := hhead h0 rest rfl hb
      have hcond : (!acc.isEmpty && !(stripL (acc.getLastD [])).isEmpty) = true := by
        rw [hne, show (stripL (acc.getLastD [])).isEmpty = false from hlast]
        rfl
      have hstep : compressStep acc h0 = acc ++ [h0] := by
        rw [compressStep_blank hb, if_pos hcond]
      rw [hstep, ih _ (fun e he => hcs e (by simp [he])) (noAdjBlank_tail hadj) ?_]
      · simp
      · intro r0 rr hrr hrb
        exfalso
        rw [hrr] at hadj
        rw [show noAdjBlank (h0 :: r0 :: rr) =
            (!(blankL h0 && blankL r0) && noAdjBlank (r0 :: rr)) from rfl,
          Bool.and_eq_true] at hadj
        rw [hb, hrb] at hadj
        simp at hadj
    · have hb' : blankL h0 = false := by
        cases hq : blankL h0
        · rfl
        · exact absurd hq hb
      have hstep : compressStep acc h0 = acc ++ [h0] := by
        by_cases hcm : commentL h0 = true
        · rw [compressStep_comment hcm, hcs h0 (by simp) hcm]
        · have hcm' : commentL h0 = false := by
            cases hq : commentL h0
            · rfl
            · exact absurd hq hcm
          exact compressStep_content hcm' hb'
      rw [hstep, ih _ (fun e he => hcs e (by simp [he])) (noAdjBlank_tail hadj) ?_]
      · simp
      · intro r0 rr hrr _
        constructor
        · simp
        · rw [show (acc ++ [h0]).getLastD [] = h0 from List.getLastD_concat _ _ _]
          exact hb'

theorem breakFree_rstrip {l : List Char} (h : ∀ c ∈ l, isNlChar c = false) :
    ∀ c ∈ rstripL l, isNlChar c = false := by
  induction l with
  | nil =>
    intro c hc
    rw [show rstripL [] = [] from rfl] at hc
    simp at hc
  | cons a rest ih =>
    intro c hc
    rw [rstrip_cons] at hc
    split_ifs at hc
    · simp at hc
    · rcases List.mem_cons.mp hc with h2 | h2
      · exact h c (by simp [h2])
      · exact ih (fun d hd => h d (by simp [hd])) c h2

theorem breakFree_lstrip {l : List Char} (h : ∀ c ∈ l, isNlChar c = false) :
    ∀ c ∈ lstripL l, isNlChar c = false := by
  intro c hc
  exact h c (((List.dropWhile_suffix isWs).sublist).subset hc)

theorem breakFree_strip {l : List Char} (h : ∀ c ∈ l, isNlChar c = false) :
    ∀ c ∈ stripL l, isNlChar c = false :=
  breakFree_rstrip (breakFree_lstrip h)

theorem compress_breakFree (ls : List (List Char)) : ∀ acc,
    (∀ l ∈ acc, ∀ c ∈ l, isNlChar c = false) →
    (∀ l ∈ ls, ∀ c ∈ l, isNlChar c = false) →
    ∀ l ∈ ls.foldl compressStep acc, ∀ c ∈ l, isNlChar c = false := by
  induction ls with
  | nil => intro acc ha _; exact ha
  | cons ln rest ih =>
    intro acc ha hl
    rw [List.foldl_cons]
    refine ih _ ?_ (fun x hx => hl x (by simp [hx]))
    intro l hmem
    by_cases hc : commentL ln = true
    · rw [compressStep_comment hc] at hmem
      rcases List.mem_append.mp hmem with h2 | h2
      · exact ha l h2
      · have h3 : l = stripL ln := by simpa using h2
        rw [h3]
        exact breakFree_strip (hl ln (by simp))
    · have hc' : commentL ln = false := by
        cases hq : commentL ln
        · rfl
        · exact absurd hq hc
      by_cases hb : blankL ln = true
      · rw [compressStep_blank hb] at hmem
        split_ifs at hmem
        · rcases List.mem_append.mp hmem with h2 | h2
          · exact ha l h2
          · have h3 : l = ln := by simpa using h2
            rw [h3]
            exact hl ln (by simp)
        · exact ha l hmem
      · have hb' : blankL ln = false := by
          cases hq : blankL ln
          · rfl
          · exact absurd hq hb
        rw [compressStep_content hc' hb'] at hmem
        rcases List.mem_append.mp hmem with h2 | h2
        · exact ha l h2
        · have h3 : l = ln := by simpa using h2
          rw [h3]
          exact hl ln (by simp)

theorem splitlines_breakFree (acc t : List Char) :
    (∀ c ∈ acc, isNlChar c = false) →
    ∀ l ∈ splitlinesGo acc t, ∀ c ∈ l, isNlChar c = false := by
  induction acc, t using splitlinesGo.induct with
  | case1 acc hacc =>
    intro _ l hl
    rw [show splitlinesGo acc [] = [] from by simp [splitlinesGo, hacc]] at hl
    simp at hl
  | case2 acc hacc =>
    intro h l hl
    rw [show splitlinesGo acc [] = [acc.reverse] from by simp [splitlinesGo, hacc]] at hl
    have : l = acc.reverse := by simpa using hl
    subst this
    intro c hc
    exact h c (List.mem_reverse.mp hc)
  | case3 acc c hc =>
    intro h l hl
    rw [show splitlinesGo acc [c] = [acc.reverse] from by simp [splitlinesGo, hc]] at hl
    have : l = acc.reverse := by simpa using hl
    subst this
    intro x hx
    exact h x (List.mem_reverse.mp hx)
  | case4 acc c hc =>
    intro h l hl
    rw [show splitlinesGo acc [c] = [(c :: acc).reverse] from by
      simp [splitlinesGo, hc]] at hl
    have : l = (c :: acc).reverse := by simpa using hl
    subst this
    intro x hx
    rcases List.mem_cons.mp (List.mem_reverse.mp hx) with h' | h'
    · subst h'
      simpa using hc
    · exact h x h'
  | case5 acc c d rest hcd ih =>
    intro h l hl
    rw [show splitlinesGo acc (c :: d :: rest) = acc.reverse :: splitlinesGo [] rest from by
      rw [splitlinesGo, if_pos hcd]] at hl
    rcases List.mem_cons.mp hl with h' | h'
    · subst h'
      intro x hx
      exact h x (List.mem_reverse.mp hx)
    · exact ih (by simp) l h'
  | case6 acc c d rest hcd hc ih =>
    intro h l hl
    rw [show splitlinesGo acc (c :: d :: rest) =
        acc.reverse :: splitlinesGo [] (d :: rest) from by
      rw [splitlinesGo, if_neg hcd, if_pos hc]] at hl
    rcases List.mem_cons.mp hl with h' | h'
    · subst h'
      intro x hx
      exact h x (List.mem_reverse.mp hx)
    · exact ih (by simp) l h'
  | case7 acc c d rest hcd hc ih =>
    intro h l hl
    rw [show splitlinesGo acc (c :: d :: rest) =
        splitlinesGo (c :: acc) (d :: rest) from by
      rw [splitlinesGo, if_neg hcd, if_neg hc]] at hl
    refine ih ?_ l hl
    intro x hx
    rcases List.mem_cons.mp hx with h' | h'
    · subst h'
      simpa using hc
    · exact h x h'

theorem splitlinesGo_append (l : List Char) : ∀ (acc rest : List Char),
    (∀ c ∈ l, isNlChar c = false) →
    splitlinesGo acc (l ++ '\n' :: rest) = (acc.reverse ++ l) :: splitlinesGo [] rest := by
  induction l with
  | nil =>
    intro acc rest _
    cases rest with
    | nil =>
      show splitlinesGo acc ['\n'] = (acc.reverse ++ []) :: splitlinesGo [] []
      rw [show splitlinesGo acc ['\n'] = [acc.reverse] from by
        simp [splitlinesGo, isNlChar]]
      simp [splitlinesGo]
    | cons e rs =>
      show splitlinesGo acc ('\n' :: e :: rs) = _
      rw [show splitlinesGo acc ('\n' :: e :: rs) =
          acc.reverse :: splitlinesGo [] (e :: rs) from by
        rw [splitlinesGo, if_neg (by simp), if_pos (by simp [isNlChar])]]
      simp
  | cons c l2 ih =>
    intro acc rest hbf
    have hc : isNlChar c = false := hbf c (by simp)
    have hcr : (c == '\r') = false := by
      cases hq : c == '\r'
      · rfl
      · exfalso
        have : c = '\r' := by simpa using hq
        rw [this] at hc
        simp [isNlChar] at hc
    cases hl : l2 ++ '\n' :: rest with
    | nil => exact absurd hl (by simp)
    | cons d rest2 =>
      rw [show c :: l2 ++ '\n' :: rest = c :: (l2 ++ '\n' :: rest) from rfl, hl]
      rw [show splitlinesGo acc (c :: d :: rest2) =
          splitlinesGo (c :: acc) (d :: rest2) from by
        rw [splitlinesGo, if_neg (by simp [hcr]), if_neg (by simp [hc])]]
      rw [← hl, ih (c :: acc) rest (fun x hx => hbf x (by simp [hx]))]
      simp

theorem splitlines_joinNl : ∀ (ls : List (List Char)), ls ≠ [] →
    (∀ l ∈ ls, ∀ c ∈ l, isNlChar c = false) →
    splitlinesL (joinNl ls ++ ['\n']) = ls := by
  intro ls
  induction ls with
  | nil => intro h; exact absurd rfl h
  | cons l rest ih =>
    intro _ hbf
    cases rest with
    | nil =>
      show splitlinesGo [] (l ++ '\n' :: []) = [l]
      rw [splitlinesGo_append l [] [] (hbf l (by simp))]
      simp [splitlinesGo]
    | cons m rest2 =>
      show splitlinesGo [] (joinNl (l :: m :: rest2) ++ ['\n']) = _
      rw [show joinNl (l :: m :: rest2) = l ++ '\n' :: joinNl (m :: rest2) from rfl]
      rw [show (l ++ '\n' :: joinNl (m :: rest2)) ++ ['\n'] =
          l ++ '\n' :: (joinNl (m :: rest2) ++ ['\n']) from by simp]
      rw [splitlinesGo_append l [] _ (hbf l (by simp))]
      rw [show splitlinesGo [] (joinNl (m :: rest2) ++ ['\n']) =
          splitlinesL (joinNl (m :: rest2) ++ ['\n']) from rfl]
      rw [ih (by simp) (fun x hx => hbf x (by simp [hx]))]
      simp

/-- C10: confirmed.  `compress_comments` keeps exactly the non-blank
lines, rewriting each comment-only line to its fully stripped form and
every other non-blank line unchanged; its output has no leading blank
line and no two adjacent blank lines (so every blank run collapses to at
most one kept blank, and leading blanks are dropped entirely); and
applying it a second time leaves the file unchanged. -/
theorem c10_compress_comments_spec :
    (∀ ls : List (List Char),
      (compress_comments ls).filter (fun ln => !blankL ln) =
        (ls.filter (fun ln => !blankL ln)).map compressEntry) ∧
    (∀ ls : List (List Char),
      noLeadBlank (compress_comments ls) = true ∧
        noAdjBlank (compress_comments ls) = true) ∧
    (∀ (b : List Char) (rest : List (List Char)), blankL b = true →
      compress_comments (b :: rest) = compress_comments rest) ∧
    (∀ t : List Char, compressText (compressText t) = compressText t) := by
  refine ⟨?_, ?_, ?_, ?_⟩
  · intro ls
    have h := compress_filter_aux ls []
    simpa using h
  · intro ls
    exact compress_shape ls [] rfl rfl
  · intro b rest hb
    show (b :: rest).foldl compressStep [] = rest.foldl compressStep []
    rw [List.foldl_cons, compressStep_blank hb]
    simp
  · intro t
    cases hout : compress_comments (splitlinesL t) with
    | nil =>
      have h1 : compressText t = ['\n'] := by
        unfold compressText
        rw [hout]
        rfl
      rw [h1]
      rfl
    | cons o os =>
      have hne : compress_comments (splitlinesL t) ≠ [] := by
        rw [hout]
        simp
      have hobf := compress_breakFree (splitlinesL t) [] (by simp)
        (splitlines_breakFree [] t (by simp))
      have hsl : splitlinesL (joinNl (compress_comments (splitlinesL t)) ++ ['\n']) =
          compress_comments (splitlinesL t) :=
        splitlines_joinNl _ hne hobf
      have hcs := compress_comment_entries (splitlinesL t) [] (by simp)
      have hshape := compress_shape (splitlinesL t) [] rfl rfl
      have hh : ∀ h0 hr, compress_comments (splitlinesL t) = h0 :: hr →
          blankL h0 = true →
          (([] : List (List Char)).isEmpty = false ∧
            blankL (([] : List (List Char)).getLastD []) = false) := by
        intro h0 hr hrr hb
        exfalso
        have hnl : noLeadBlank (compress_comments (splitlinesL t)) = true := hshape.1
        rw [hrr] at hnl
        rw [show noLeadBlank (h0 :: hr) = !blankL h0 from rfl, hb] at hnl
        simp at hnl
      have hfx := compress_fixpoint_aux (compress_comments (splitlinesL t)) [] hcs
        hshape.2 hh
      have hcc : compress_comments (compress_comments (splitlinesL t)) =
          compress_comments (splitlinesL t) := by
        simpa using hfx
      show compressText (compressText t) = compressText t
      unfold compressText
      rw [hsl, hcc]

/-- Witness for C10: a leading blank line is dropped. -/
theorem c10_compress_comments_spec_witness :
    blankL (toL "  ") = true ∧
    compress_comments [toL "  ", toL "a: 1"] = compress_comments [toL "a: 1"] :=
  ⟨by decide, c10_compress_comments_spec.2.2.1 (toL "  ") [toL "a: 1"] (by decide)⟩

theorem jsonc_main_fold (files : List (List Char)) :
    ∀ acc : List (List Char) × List (List Char),
    files.foldl mainStep acc =
      (acc.1 ++ files.map (fun c => (format_jsonc c).getD c),
       acc.2 ++ files.filter (fun c => (format_jsonc c).isNone)) := by
  induction files with
  | nil => intro acc; simp
  | cons c rest ih =>
    intro acc
    rw [List.foldl_cons]
    cases hf : format_jsonc c with
    | none =>
      rw [show mainStep acc c = (acc.1 ++ [c], acc.2 ++ [c]) from by
        simp only [mainStep]
        rw [hf]]
      rw [ih]
      simp [List.filter_cons, hf]
    | some v =>
      rw [show mainStep acc c = (acc.1 ++ [v], acc.2) from by
        simp only [mainStep]
        rw [hf]]
      rw [ih]
      simp [List.filter_cons, hf]

theorem format_yaml_nonworkflow (t : List Char) (ht : t.isEmpty = false) :
    format_yaml_file false t =
      match yaml_load (compressText t) with
      | .error _ => ⟨[compressText t], compressText t, false⟩
      | .ok (some _) => ⟨[compressText t], compressText t, true⟩
      | .ok none =>
        ⟨[compressText t, toL "null\n", strip_trailing_whitespace (toL "null\n")],
          strip_trailing_whitespace (toL "null\n"), true⟩ := by
  unfold format_yaml_file
  rw [if_neg (by simp [ht])]
  rfl

/-- C6 amended: the claim holds for the JSONC driver — every file is
attempted, a file whose parse fails is left with its original content and
its path is collected in order, and the exit status is zero exactly when
no file failed.  The YAML script, by contrast, rewrites a failing file by
comment compression before the parse failure (its final content is the
compression output) and has no failure-collecting driver. -/
theorem c6_driver_contract :
    (∀ files : List (List Char),
      ((jsonc_main files).exitCode = 0 ↔ (jsonc_main files).failed = [])) ∧
    (∀ files : List (List Char),
      (jsonc_main files).failed = files.filter (fun c => (format_jsonc c).isNone)) ∧
    (∀ files : List (List Char),
      (jsonc_main files).finals = files.map (fun c => (format_jsonc c).getD c)) ∧
    (∀ c : List Char, format_jsonc c = none → (format_jsonc c).getD c = c) ∧
    (∀ t : List Char, t ≠ [] → (format_yaml_file false t).ok = false →
      (format_yaml_file false t).final = compressText t) := by
  have hrun : ∀ files : List (List Char),
      jsonc_main files =
        ⟨files.map (fun c => (format_jsonc c).getD c),
         files.filter (fun c => (format_jsonc c).isNone),
         if (files.filter (fun c => (format_jsonc c).isNone)).isEmpty then 0 else 1⟩ := by
    intro files
    unfold jsonc_main
    rw [jsonc_main_fold files ([], [])]
    simp
  refine ⟨?_, ?_, ?_, ?_, ?_⟩
  · intro files
    rw [hrun]
    split_ifs with h
    · simp only [true_iff]
      exact List.isEmpty_iff.mp h
    · simp only []
      constructor
      · intro h0
        exact absurd h0 (by simp)
      · intro hnil
        exact absurd (List.isEmpty_iff.mpr hnil) h
  · intro files
    rw [hrun]
  · intro files
    rw [hrun]
  · intro c hc
    rw [hc]
    rfl
  · intro t ht hok
    have hte : t.isEmpty = false := List.isEmpty_eq_false.mpr ht
    rw [format_yaml_nonworkflow t hte] at hok ⊢
    cases hl : yaml_load (compressText t) with
    | error e => rfl
    | ok o =>
      rw [hl] at hok
      cases o with
      | none => exact absurd hok (by simp)
      | some u => exact absurd hok (by simp)

/-- Witness for C6 amended: a malformed YAML file that failed to parse
ends up rewritten as its comment compression. -/
theorem c6_driver_contract_witness :
    (toL "a: [1\n\n\n") ≠ [] ∧
    (format_yaml_file false (toL "a: [1\n\n\n")).ok = false ∧
    (format_yaml_file false (toL "a: [1\n\n\n")).final =
      compressText (toL "a: [1\n\n\n") :=
  ⟨by decide, rfl,
    c6_driver_contract.2.2.2.2 (toL "a: [1\n\n\n") (by decide) rfl⟩

theorem forall_mem_append_one {P : List Char → Prop} {l : List (List Char)}
    {x : List Char} (hl : ∀ e ∈ l, P e) (hx : P x) : ∀ e ∈ l ++ [x], P e := by
  intro e he
  rcases List.mem_append.mp he with h | h
  · exact hl e h
  · rw [show e = x from by simpa using h]
    exact hx

theorem mem_takeWhile {p : Char → Bool} {l : List Char} :
    ∀ c ∈ l.takeWhile p, c ∈ l := by
  induction l with
  | nil => intro c hc; simp at hc
  | cons a rest ih =>
    intro c hc
    rw [List.takeWhile_cons] at hc
    split_ifs at hc
    · rcases List.mem_cons.mp hc with h | h
      · simp [h]
      · simp [ih c h]
    · simp at hc

theorem getLast?_append_right {a b : List Char} (h : b ≠ []) :
    (a ++ b).getLast? = b.getLast? := by
  induction a with
  | nil => rfl
  | cons c a2 ih =>
    cases hab : a2 ++ b with
    | nil =>
      exact absurd (List.append_eq_nil.mp hab).2 h
    | cons x xs =>
      show (c :: (a2 ++ b)).getLast? = b.getLast?
      rw [hab, List.getLast?_cons_cons, ← hab]
      exact ih

theorem getLastD_cons_mem (a : List Char) (l : List (List Char)) (d : List Char) :
    (a :: l).getLastD d ∈ a :: l := by
  induction l generalizing a d with
  | nil => simp [List.getLastD]
  | cons b l2 ih =>
    rw [List.getLastD_cons]
    rcases List.mem_cons.mp (ih b a) with h | h
    · rw [h]
      simp
    · exact List.mem_cons_of_mem _ (List.mem_cons_of_mem _ h)

theorem ne_nil_of_strip_ne {e : List Char} (h : (stripL e).isEmpty = false) :
    e ≠ [] := by
  intro he
  rw [he] at h
  exact absurd h (by simp [stripL, lstripL, rstripL])

theorem lineEndOk_rstrip (l : List Char) : lineEndOk (rstripL l) := by
  rcases rstrip_ends l with h | h
  · exact Or.inl h
  · exact Or.inr h

theorem lineEndOk_strip (l : List Char) : lineEndOk (stripL l) :=
  lineEndOk_rstrip (lstripL l)

theorem lineEndOk_keeps {e : List Char} (h : lineEndOk e) : keepsLastOk e := by
  intro hne
  rcases h with h | ⟨c, hc, hws⟩
  · exact absurd hne (by rw [h]; simp [stripL, lstripL, rstripL])
  · rw [hc]
    intro hcontra
    have : c = '\n' := by simpa using hcontra
    rw [this] at hws
    exact absurd hws (by simp [isWs])

theorem breakFree_keeps {e : List Char} (h : ∀ c ∈ e, isNlChar c = false) :
    keepsLastOk e := by
  intro hne
  cases he : e.getLast? with
  | none => simp
  | some c =>
    have hmem : c ∈ e := by
      cases hev : e with
      | nil => rw [hev] at he; exact Option.noConfusion he
      | cons x xs =>
        rw [hev] at he
        have := List.getLast?_eq_getLast (x :: xs) (by simp)
        rw [this] at he
        have hc : (x :: xs).getLast (by simp) = c := by simpa using he
        rw [← hc]
        exact List.getLast_mem (by simp)
    have hn := h c hmem
    intro hcontra
    have : c = '\n' := by simpa using hcontra
    rw [this] at hn
    exact absurd hn (by simp [isNlChar])

theorem split_comment_endOk {line m : List Char}
    (h : (split_content_and_comment line).2 = some m) : lineEndOk m := by
  unfold split_content_and_comment at h
  cases hf : findComment line false false 0 with
  | none =>
    rw [hf] at h
    exact Option.noConfusion h
  | some i =>
    rw [hf] at h
    have hm : m = stripL (line.drop i) := (Option.some.inj h).symm
    rw [hm]
    exact lineEndOk_strip _

theorem mem_updA {α : Type} {m : List (List Char × α)} {k : List Char} {v : α} :
    ∀ p ∈ updA m k v, p ∈ m ∨ p = (k, v) := by
  induction m with
  | nil =>
    intro p hp
    right
    simpa [updA] using hp
  | cons q rest ih =>
    intro p hp
    rcases q with ⟨k2, v2⟩
    simp only [updA] at hp
    split_ifs at hp with h
    · rcases List.mem_cons.mp hp with h2 | h2
      · right; exact h2
      · left; simp [h2]
    · rcases List.mem_cons.mp hp with h2 | h2
      · left; simp [h2]
      · rcases ih p h2 with h3 | h3
        · left; simp [h3]
        · right; exact h3

theorem lookupA_mem {α : Type} {m : List (List Char × α)} {k : List Char} {v : α}
    (h : lookupA m k = some v) : (k, v) ∈ m := by
  induction m with
  | nil => exact Option.noConfusion h
  | cons q rest ih =>
    rcases q with ⟨k2, v2⟩
    simp only [lookupA] at h
    split_ifs at h with hk
    · have hv : v2 = v := Option.some.inj h
      have hkk : k2 = k := by simpa using hk
      rw [← hkk, ← hv]
      simp
    · simp [ih h]

theorem extractStep_ok (st : ExtractSt) (line : List Char)
    (h1 : ∀ e ∈ st.top, lineEndOk e) (h2 : ∀ e ∈ st.cur, lineEndOk e)
    (h3 : ∀ p ∈ st.leading, ∀ e ∈ p.2, lineEndOk e)
    (h4 : ∀ p ∈ st.inl, lineEndOk p.2) :
    (∀ e ∈ (extractStep st line).top, lineEndOk e) ∧
    (∀ e ∈ (extractStep st line).cur, lineEndOk e) ∧
    (∀ p ∈ (extractStep st line).leading, ∀ e ∈ p.2, lineEndOk e) ∧
    (∀ p ∈ (extractStep st line).inl, lineEndOk p.2) := by
  rcases hpr : split_content_and_comment line with ⟨content, comment⟩
  have hcm : ∀ m, comment = some m → lineEndOk m := by
    intro m hm
    exact split_comment_endOk (by rw [hpr]; exact hm)
  simp only [extractStep, hpr]
  by_cases g1 : content.isEmpty = true
  · rw [if_pos g1]
    by_cases g2 : (!st.inObj) = true
    · rw [if_pos g2]
      exact ⟨forall_mem_append_one h1 (lineEndOk_rstrip line), h2, h3, h4⟩
    · rw [if_neg g2]
      exact ⟨h1, forall_mem_append_one h2 (lineEndOk_strip line), h3, h4⟩
  · rw [if_neg g1]
    by_cases g2 : beginsWith content ['{'] = true
    · rw [if_pos g2]
      exact ⟨h1, h2, h3, h4⟩
    · rw [if_neg g2]
      by_cases g3 : beginsWith content ['}'] = true
      · rw [if_pos g3]
        cases comment with
        | none => exact ⟨h1, h2, h3, h4⟩
        | some cm => exact ⟨h1, forall_mem_append_one h2 (hcm cm rfl), h3, h4⟩
      · rw [if_neg g3]
        cases hk : keyMatch content with
        | none =>
          cases comment with
          | none => exact ⟨h1, h2, h3, h4⟩
          | some cm => exact ⟨h1, forall_mem_append_one h2 (hcm cm rfl), h3, h4⟩
        | some key =>
          have hemp : ∀ e ∈ ([] : List (List Char)), lineEndOk e := by
            intro e he
            simp at he
          have hld : ∀ p ∈ updA st.leading (full_path st.stack key) st.cur,
              ∀ e ∈ p.2, lineEndOk e := by
            intro p hp
            rcases mem_updA p hp with h | h
            · exact h3 p h
            · intro e he
              rw [h] at he
              exact h2 e he
          cases comment with
          | none =>
            split_ifs with gcur gbr
            all_goals first
              | exact ⟨h1, hemp, hld, h4⟩
              | exact ⟨h1, h2, h3, h4⟩
          | some cm =>
            have hin1 : ∀ p ∈ updA st.inl (full_path st.stack key) cm,
                lineEndOk p.2 := by
              intro p hp
              rcases mem_updA p hp with h | h
              · exact h4 p h
              · rw [h]
                exact hcm cm rfl
            split_ifs with gcur gbr
            all_goals first
              | exact ⟨h1, hemp, hld, hin1⟩
              | exact ⟨h1, h2, h3, hin1⟩

theorem extract_inv (lines : List (List Char)) :
    (∀ e ∈ (extract_comments lines).top, lineEndOk e) ∧
    (∀ e ∈ (extract_comments lines).cur, lineEndOk e) ∧
    (∀ p ∈ (extract_comments lines).leading, ∀ e ∈ p.2, lineEndOk e) ∧
    (∀ p ∈ (extract_comments lines).inl, lineEndOk p.2) := by
  suffices h : ∀ st : ExtractSt,
      (∀ e ∈ st.top, lineEndOk e) → (∀ e ∈ st.cur, lineEndOk e) →
      (∀ p ∈ st.leading, ∀ e ∈ p.2, lineEndOk e) →
      (∀ p ∈ st.inl, lineEndOk p.2) →
      ((∀ e ∈ (lines.foldl extractStep st).top, lineEndOk e) ∧
       (∀ e ∈ (lines.foldl extractStep st).cur, lineEndOk e) ∧
       (∀ p ∈ (lines.foldl extractStep st).leading, ∀ e ∈ p.2, lineEndOk e) ∧
       (∀ p ∈ (lines.foldl extractStep st).inl, lineEndOk p.2)) by
    exact h ⟨[], [], [], [], [], false⟩ (by intro e he; simp at he)
      (by intro e he; simp at he) (by intro p hp; simp at hp)
      (by intro p hp; simp at hp)
  induction lines with
  | nil => intro st a b c d; exact ⟨a, b, c, d⟩
  | cons ln rest ih =>
    intro st a b c d
    rw [List.foldl_cons]
    obtain ⟨a2, b2, c2, d2⟩ := extractStep_ok st ln a b c d
    exact ih _ a2 b2 c2 d2

theorem reinjectStep_key (leading : List (List Char × List (List Char)))
    (inl : List (List Char × List Char))
    (acc : List (List Char) × List (List Char)) (line key : List Char)
    (hg : ¬beginsWith (stripL line) ['}'] = true)
    (hk : keyMatch line = some key) :
    reinjectStep leading inl acc line =
      ((match lookupA leading (full_path acc.2 key) with
        | some cs =>
          acc.1 ++ cs.map (fun c => line.takeWhile (fun c2 => c2 != '"') ++ stripL c)
        | none => acc.1) ++
        [match lookupA inl (full_path acc.2 key) with
          | some ic => line ++ ' ' :: ic
          | none => line],
       if endsWithL (stripL line) ['{'] = true then acc.2 ++ [key] else acc.2) := by
  simp only [reinjectStep]
  rw [if_neg hg, hk]

theorem reinjectStep_out (leading : List (List Char × List (List Char)))
    (inl : List (List Char × List Char))
    (hld : ∀ p ∈ leading, ∀ e ∈ p.2, lineEndOk e)
    (hin : ∀ p ∈ inl, lineEndOk p.2)
    (acc : List (List Char) × List (List Char)) (line : List Char)
    (hbf : ∀ c ∈ line, isNlChar c = false)
    (hacc : ∀ e ∈ acc.1, keepsLastOk e) :
    ∀ e ∈ (reinjectStep leading inl acc line).1, keepsLastOk e := by
  simp only [reinjectStep]
  by_cases g1 : beginsWith (stripL line) ['}'] = true
  · rw [if_pos g1]
    exact forall_mem_append_one hacc (breakFree_keeps hbf)
  · rw [if_neg g1]
    cases hk : keyMatch line with
    | none => exact forall_mem_append_one hacc (breakFree_keeps hbf)
    | some key =>
      have hline2 : ∀ ic, lookupA inl (full_path acc.2 key) = some ic →
          keepsLastOk (line ++ ' ' :: ic) := by
        intro ic hic _
        rw [getLast?_append_right (by simp)]
        cases hicv : ic with
        | nil => decide
        | cons x xs =>
          rw [List.getLast?_cons_cons]
          have hok : lineEndOk ic := hin _ (lookupA_mem hic)
          rcases hok with h | ⟨c, hc, hws⟩
          · rw [h] at hicv
            exact List.noConfusion hicv
          · rw [hicv] at hc
            rw [hc]
            intro hcon
            have hcc : c = '\n' := by simpa using hcon
            rw [hcc] at hws
            exact absurd hws (by simp [isWs])
      have hindok : ∀ c0 : List Char,
          keepsLastOk (line.takeWhile (fun c => c != '"') ++ stripL c0) := by
        intro c0 hne
        cases hsc : stripL c0 with
        | nil =>
          rw [List.append_nil]
          have hbt : ∀ c ∈ line.takeWhile (fun c => c != '"'), isNlChar c = false :=
            fun c hc => hbf c (mem_takeWhile c hc)
          rw [hsc, List.append_nil] at hne
          exact breakFree_keeps hbt hne
        | cons x xs =>
          rw [getLast?_append_right (by simp)]
          rcases lineEndOk_strip c0 with h | ⟨c, hc, hws⟩
          · rw [h] at hsc
            exact List.noConfusion hsc
          · rw [hsc] at hc
            rw [hc]
            intro hcon
            have hcc : c = '\n' := by simpa using hcon
            rw [hcc] at hws
            exact absurd hws (by simp [isWs])
      rw [show (match some key with
          | some k =>
            ((match lookupA leading (full_path acc.2 k) with
              | some cs =>
                acc.1 ++ cs.map (fun c =>
                  line.takeWhile (fun c2 => c2 != '"') ++ stripL c)
              | none => acc.1) ++
              [match lookupA inl (full_path acc.2 k) with
                | some ic => line ++ ' ' :: ic
                | none => line],
             if endsWithL (stripL line) ['{'] = true then acc.2 ++ [k] else acc.2)
          | none => (acc.1 ++ [line], acc.2)) =
          ((match lookupA leading (full_path acc.2 key) with
            | some cs =>
              acc.1 ++ cs.map (fun c =>
                line.takeWhile (fun c2 => c2 != '"') ++ stripL c)
            | none => acc.1) ++
            [match lookupA inl (full_path acc.2 key) with
              | some ic => line ++ ' ' :: ic
              | none => line],
           if endsWithL (stripL line) ['{'] = true then acc.2 ++ [key] else acc.2)
          from rfl]
      cases hlk : lookupA leading (full_path acc.2 key) with
      | none =>
        cases hik : lookupA inl (full_path acc.2 key) with
        | none =>
          exact forall_mem_append_one hacc (breakFree_keeps hbf)
        | some ic =>
          exact forall_mem_append_one hacc (hline2 ic hik)
      | some cs =>
        have hout1 : ∀ e ∈ acc.1 ++
            cs.map (fun c => line.takeWhile (fun c2 => c2 != '"') ++ stripL c),
            keepsLastOk e := by
          intro e he
          rcases List.mem_append.mp he with h | h
          · exact hacc e h
          · obtain ⟨c0, hc0, hec⟩ := List.mem_map.mp h
            rw [← hec]
            exact hindok c0
        cases hik : lookupA inl (full_path acc.2 key) with
        | none =>
          exact forall_mem_append_one hout1 (breakFree_keeps hbf)
        | some ic =>
          exact forall_mem_append_one hout1 (hline2 ic hik)

theorem reinject_inv (leading : List (List Char × List (List Char)))
    (inl : List (List Char × List Char))
    (hld : ∀ p ∈ leading, ∀ e ∈ p.2, lineEndOk e)
    (hin : ∀ p ∈ inl, lineEndOk p.2) :
    ∀ (mid : List (List Char)), (∀ l ∈ mid, ∀ c ∈ l, isNlChar c = false) →
    ∀ acc : List (List Char) × List (List Char), (∀ e ∈ acc.1, keepsLastOk e) →
    ∀ e ∈ (mid.foldl (reinjectStep leading inl) acc).1, keepsLastOk e := by
  intro mid
  induction mid with
  | nil => intro _ acc hacc; exact hacc
  | cons ln rest ih =>
    intro hmid acc hacc
    rw [List.foldl_cons]
    exact ih (fun l hl => hmid l (List.mem_cons_of_mem _ hl)) _
      (reinjectStep_out leading inl hld hin acc ln (hmid ln (by simp)) hacc)

theorem joinNl_ne_nil {e : List Char} {es : List (List Char)} (he : e ≠ []) :
    joinNl (e :: es) ≠ [] := by
  cases es with
  | nil => exact he
  | cons f fs =>
    rw [show joinNl (e :: f :: fs) = e ++ '\n' :: joinNl (f :: fs) from rfl]
    simp

theorem joinNl_getLast? : ∀ es : List (List Char), (∀ e ∈ es, e ≠ []) →
    es ≠ [] →
    (joinNl es).getLast? = (es.getLastD []).getLast? := by
  intro es
  induction es with
  | nil =>
    intro _ h
    exact absurd rfl h
  | cons e es2 ih =>
    intro hne _
    cases es2 with
    | nil => rfl
    | cons f fs =>
      rw [show joinNl (e :: f :: fs) = e ++ '\n' :: joinNl (f :: fs) from rfl]
      rw [getLast?_append_right (by simp)]
      have hjoin : joinNl (f :: fs) ≠ [] := joinNl_ne_nil (hne f (by simp))
      rw [show ('\n' :: joinNl (f :: fs)).getLast? = (joinNl (f :: fs)).getLast? from by
        cases hj : joinNl (f :: fs) with
        | nil => exact absurd hj hjoin
        | cons x xs => rw [List.getLast?_cons_cons]]
      rw [ih (fun x hx => hne x (by simp [hx])) (by simp)]
      simp [List.getLastD_cons]

theorem join_one_nl (es : List (List Char))
    (h : ∀ e ∈ es, (stripL e).isEmpty = false ∧ e.getLast? ≠ some '\n') :
    (joinNl es ++ ['\n']).getLast? = some '\n' ∧
      endsWithL (joinNl es ++ ['\n']) (toL "\n\n") = false := by
  constructor
  · rw [List.getLast?_concat]
  · rw [endsWithL]
    rw [show (toL "\n\n").reverse = ['\n', '\n'] from rfl]
    rw [show (joinNl es ++ ['\n']).reverse = '\n' :: (joinNl es).reverse from by simp]
    rw [show beginsWith ('\n' :: (joinNl es).reverse) ['\n', '\n'] =
        beginsWith (joinNl es).reverse ['\n'] from by simp [beginsWith]]
    by_cases hesn : es = []
    · rw [hesn]
      rfl
    · have hne : ∀ e ∈ es, e ≠ [] := by
        intro e he
        exact ne_nil_of_strip_ne (h e he).1
      have hlast0 : es.getLastD [] ∈ es := by
        cases hesv : es with
        | nil => exact absurd hesv hesn
        | cons e0 es2 => exact getLastD_cons_mem e0 es2 []
      obtain ⟨hstr, hnl⟩ := h _ hlast0
      have hlne : es.getLastD [] ≠ [] := ne_nil_of_strip_ne hstr
      cases hgl : (es.getLastD []).getLast? with
      | none => exact absurd (List.getLast?_eq_none_iff.mp hgl) hlne
      | some c =>
        have hcn : c ≠ '\n' := by
          intro hcc
          rw [hcc] at hgl
          exact hnl hgl
        have hjl : (joinNl es).getLast? = some c := by
          rw [joinNl_getLast? es hne hesn]
          exact hgl
        have hw : (joinNl es).reverse.head? = some c := by
          rw [List.head?_reverse]
          exact hjl
        cases hwv : (joinNl es).reverse with
        | nil =>
          rw [hwv] at hw
          exact Option.noConfusion hw
        | cons x xs =>
          rw [hwv] at hw
          have hx : x = c := by simpa using hw
          rw [hx]
          cases xs <;> simp [beginsWith, hcn]

theorem pure_out_one_nl (lines : List (List Char)) :
    (pure_comment_out lines).getLast? = some '\n' ∧
      endsWithL (pure_comment_out lines) (toL "\n\n") = false := by
  unfold pure_comment_out
  refine join_one_nl _ ?_
  intro e he
  obtain ⟨ln, hln, hel⟩ := List.mem_map.mp he
  have hfil := (List.mem_filter.mp hln).2
  constructor
  · rw [← hel, show rstripL (lstripL ln) = stripL ln from rfl, stripL_idem]
    simpa using hfil
  · rw [← hel]
    rcases lineEndOk_strip ln with h | ⟨c, hc, hws⟩
    · exfalso
      rw [h] at hfil
      simp at hfil
    · rw [show rstripL (lstripL ln) = stripL ln from rfl, hc]
      intro hcon
      have hcc : c = '\n' := by simpa using hcon
      rw [hcc] at hws
      exact absurd hws (by simp [isWs])

/-- C9 amended: every text the JSONC formatter writes ends with exactly
one trailing newline (and its last line is non-blank, except that an
input with no non-blank content yields a lone newline); the YAML
formatter leaves empty files completely untouched, every non-empty file
it processes outside the workflow directory ends with a trailing newline,
and a workflow-directory file whose document loads as non-`None` is not
written at all. -/
theorem c9_trailing_newline :
    (∀ t v, format_jsonc t = some v →
      v.getLast? = some '\n' ∧ endsWithL v (toL "\n\n") = false) ∧
    (∀ wf, format_yaml_file wf [] = ⟨[], [], true⟩) ∧
    (∀ t : List Char, t ≠ [] →
      (format_yaml_file false t).final.getLast? = some '\n') ∧
    (∀ t : List Char, t ≠ [] → yaml_load t = .ok (some ()) →
      format_yaml_file true t = ⟨[], t, true⟩) := by
  refine ⟨?_, ?_, ?_, ?_⟩
  · intro t v hv
    simp only [format_jsonc] at hv
    split_ifs at hv with hpc
    · rw [← Option.some.inj hv]
      exact pure_out_one_nl _
    · cases hld : jsonc_loads t with
      | none =>
        simp only [hld] at hv
        exact Option.noConfusion hv
      | some data =>
        simp only [hld] at hv
        split_ifs at hv with hfa
        · rw [← Option.some.inj hv]
          exact pure_out_one_nl _
        · cases hsp : splitlinesL (dumps data) with
          | nil =>
            simp only [hsp] at hv
            exact Option.noConfusion hv
          | cons opening restF =>
            simp only [hsp] at hv
            rw [← Option.some.inj hv]
            have hEx := extract_inv ((splitlinesL t).map (fun l => l ++ ['\n']))
            have hforms : ∀ l ∈ opening :: restF, ∀ c ∈ l, isNlChar c = false := by
              rw [← hsp]
              exact splitlines_breakFree [] (dumps data) (by intro c hc; simp at hc)
            have hmidbf : ∀ l ∈ restF.dropLast, ∀ c ∈ l, isNlChar c = false := by
              intro l hl
              exact hforms l
                (List.mem_cons_of_mem _ ((List.dropLast_sublist restF).subset hl))
            have hrout := reinject_inv
              (extract_comments ((splitlinesL t).map (fun l => l ++ ['\n']))).leading
              (extract_comments ((splitlinesL t).map (fun l => l ++ ['\n']))).inl
              hEx.2.2.1 hEx.2.2.2 restF.dropLast hmidbf ([], [])
              (by intro e he; simp at he)
            refine join_one_nl _ ?_
            intro e he
            obtain ⟨he3, hfil⟩ := List.mem_filter.mp he
            refine ⟨by simpa using hfil, ?_⟩
            have hK : keepsLastOk e := by
              rcases List.mem_append.mp he3 with h2 | h2
              · split_ifs at h2 with hre
                · rcases List.mem_append.mp h2 with h4 | h4
                  · exact lineEndOk_keeps (hEx.1 e h4)
                  · rcases List.mem_cons.mp h4 with h5 | h5
                    · rw [h5]
                      exact breakFree_keeps (hforms opening (by simp))
                    · exact hrout e h5
                · rcases List.mem_append.mp h2 with h3 | h3
                  · rcases List.mem_append.mp h3 with h4 | h4
                    · exact lineEndOk_keeps (hEx.1 e h4)
                    · rcases List.mem_cons.mp h4 with h5 | h5
                      · rw [h5]
                        exact breakFree_keeps (hforms opening (by simp))
                      · exact hrout e h5
                  · rw [show e = (opening :: restF).getLastD [] from by simpa using h3]
                    exact breakFree_keeps (hforms _ (getLastD_cons_mem opening restF []))
              · exact lineEndOk_keeps (hEx.2.1 e h2)
            exact hK (by simpa using hfil)
  · intro wf
    rfl
  · intro t ht
    have hte : t.isEmpty = false := List.isEmpty_eq_false.mpr ht
    rw [format_yaml_nonworkflow t hte]
    cases hl : yaml_load (compressText t) with
    | error e =>
      show (compressText t).getLast? = some '\n'
      unfold compressText
      exact List.getLast?_concat _
    | ok o =>
      cases o with
      | some u =>
        show (compressText t).getLast? = some '\n'
        unfold compressText
        exact List.getLast?_concat _
      | none =>
        show (strip_trailing_whitespace (toL "null\n")).getLast? = some '\n'
        unfold strip_trailing_whitespace
        exact List.getLast?_concat _
  · intro t ht hl
    have hred : format_yaml_file true t =
        match yaml_load t with
        | .error _ => ⟨[], t, false⟩
        | .ok (some _) => ⟨[], t, true⟩
        | .ok none =>
          ⟨[toL "null\n", strip_trailing_whitespace (toL "null\n")],
            strip_trailing_whitespace (toL "null\n"), true⟩ := by
      unfold format_yaml_file
      rw [if_neg (by simp [List.isEmpty_eq_false.mpr ht])]
      rfl
    rw [hred, hl]

/-- Witness for C9 amended: a simple JSONC document formats to text with
exactly one trailing newline, and a simple YAML file's final content ends
with a newline. -/
theorem c9_trailing_newline_witness :
    ((toL "\x7b\n  \"a\": 1\n\x7d\n").getLast? = some '\n' ∧
      endsWithL (toL "\x7b\n  \"a\": 1\n\x7d\n") (toL "\n\n") = false) ∧
    (format_yaml_file false (toL "a: 1\n")).final.getLast? = some '\n' :=
  ⟨c9_trailing_newline.1 (toL "\x7b\"a\": 1\x7d") (toL "\x7b\n  \"a\": 1\n\x7d\n") rfl,
    c9_trailing_newline.2.2.1 (toL "a: 1\n") (by decide)⟩

end Fmt
